import Mathlib

/-! The streaming read filter `search_hts_alignments` of dysgu (`find_reads.h`).

A shallow embedding of `search_hts_alignments` (src/dysgu/find_reads.h) and
theorems about it.  The htslib transport (open, header, threads, read, write,
close) and `XXHash64::hash` are not part of the source file; they appear here
as parameters whose results the function consumes.
-/

namespace Dysgu

/-! ## Data model -/

/-- Contents of one alignment record (`bam1_t`): the fields the function reads.
`qname` holds the `l_qname` bytes handed to the hash, `cigar` the `n_cigar`
operations, `aux` the two-byte names of the optional tagged fields. -/
structure bam1_t where
  flag : Nat
  qname : List Nat
  cigar : List (Nat × Nat)
  aux : List (Nat × Nat)
deriving DecidableEq, Repr

/-- The record object returned by `bam_init1()`: zeroed, nothing read into it. -/
def bam_init1 : bam1_t := ⟨0, [], [], []⟩

/-- A `bam1_t*`: the record object is named by the number of `bam_init1()`
calls made before it was allocated (`addr`), and carries its contents (`val`).
Each object is owned by exactly one container, so contents travel with it. -/
structure bam1_ptr where
  addr : Nat
  val : bam1_t
deriving DecidableEq, Repr

/-- Modelled from the spec: a CIGAR is an ordered sequence of (operation,
length) pairs; `bam_cigar_op` of htslib (sam.h is not among the sources) reads
the operation. -/
def bam_cigar_op (c : Nat × Nat) : Nat := c.1

/-- Modelled from the spec: a CIGAR is an ordered sequence of (operation,
length) pairs; `bam_cigar_oplen` of htslib (sam.h is not among the sources)
reads the length. -/
def bam_cigar_oplen (c : Nat × Nat) : Nat := c.2

/-- Modelled from the spec: the operation code of an insertion (htslib's
constant, sam.h is not among the sources). -/
def BAM_CINS : Nat := 1

/-- Modelled from the spec: the operation code of a deletion (htslib's
constant, sam.h is not among the sources). -/
def BAM_CDEL : Nat := 2

/-- Modelled from the spec: the operation code of a soft clip (htslib's
constant, sam.h is not among the sources). -/
def BAM_CSOFT_CLIP : Nat := 4

/-- Modelled from the spec: `bam_aux_get(aln, "SA")` finds the optional field
tagged `SA` (bytes 83, 65) when the record carries one. -/
def bam_aux_get_SA (aln : bam1_t) : Bool := decide ((83, 65) ∈ aln.aux)

/-- Results of the calls into the htslib transport, in the order the function
makes them.  `fp_in_open` and `f_out_open` say whether `hts_open` returned a
handle; the function never tests them.  `records` are the records `sam_read1`
delivers before its first negative return, which leaves the record object it
was given as it was; `sam_write1 n` is the return value of the write attempted
after `n` earlier successful writes. -/
structure Transport where
  fp_in_open : Bool
  hts_set_threads_in : Int
  sam_hdr_read : Bool
  f_out_open : Bool
  hts_set_threads_out : Int
  sam_hdr_write : Int
  records : List bam1_t
  sam_write1 : Nat → Int
  hts_close_in : Int
  hts_close_out : Int

/-- Local state of `search_hts_alignments` inside and after the read loop.
`out` is the sequence of records handed successfully to `sam_write1`;
`n_init` counts the `bam_init1()` calls made so far. -/
structure State where
  scope : List (Nat × bam1_ptr)
  write_queue : List bam1_ptr
  read_names : Finset Nat
  total : Nat
  out : List bam1_ptr
  n_init : Nat

/-- What the caller observes: the returned `int` and the records written. -/
structure Outcome where
  ret : Int
  written : List bam1_ptr
deriving DecidableEq, Repr

/-! ## The function -/

/-- The constant `max_scope` of the source. -/
def max_scope : Nat := 100000

/-- The constant `max_write_queue` of the source. -/
def max_write_queue : Nat := 500000

/-- `const int check_clips = (clip_length > 0) ? 1 : 0;` -/
def check_clips (clip_length : Int) : Nat := if clip_length > 0 then 1 else 0

/-- The conversion of an `int` to `uint32_t` made by the comparison
`length >= clip_length`. -/
def to_uint32 (x : Int) : Nat := (x % 4294967296).toNat

/-- The conversion of the `uint64_t` counter to the returned `int`. -/
def to_int (n : Nat) : Int :=
  if n % 4294967296 < 2147483648 then ((n % 4294967296 : Nat) : Int)
  else ((n % 4294967296 : Nat) : Int) - 4294967296

/-- `(~flag & 2 && flag & 1) || flag & 2048`, with `flag` promoted to a 32-bit
`int` before the complement. -/
def discordant_or_supplementary (flag : Nat) : Bool :=
  (decide ((4294967295 - flag) &&& 2 ≠ 0) && decide (flag &&& 1 ≠ 0))
    || decide (flag &&& 2048 ≠ 0)

/-- The CIGAR loop (lines 106-121): `true` when some operation makes the loop
insert the hash and break. -/
def cigar_scan (min_within_size : Nat) (clip_length : Int) : List (Nat × Nat) → Bool
  | [] => false
  | c :: rest =>
    if check_clips clip_length ≠ 0 ∧ bam_cigar_op c = BAM_CSOFT_CLIP
        ∧ bam_cigar_oplen c ≥ to_uint32 clip_length then true
    else if (bam_cigar_op c = BAM_CINS ∨ bam_cigar_op c = BAM_CDEL)
        ∧ bam_cigar_oplen c ≥ min_within_size then true
    else cigar_scan min_within_size clip_length rest

/-- Lines 91-121: whether the evaluation of an alignment whose hash is not yet
in `read_names` inserts the hash. -/
def marks_read (min_within_size : Nat) (clip_length : Int) (aln : bam1_t) : Bool :=
  if discordant_or_supplementary (aln.flag % 65536) then true
  else if bam_aux_get_SA aln then true
  else cigar_scan min_within_size clip_length aln.cigar

/-- Line 81: `flag & 1028 || aln->core.n_cigar == 0 || aln->core.l_qname == 0`. -/
def skipped (aln : bam1_t) : Bool :=
  decide ((aln.flag % 65536) &&& 1028 ≠ 0) || decide (aln.cigar.length = 0)
    || decide (aln.qname.length = 0)

/-- Apply `f` to `scope.back()`. -/
def modify_back {α : Type} (f : α → α) : List α → List α
  | [] => []
  | [x] => [f x]
  | x :: y :: rest => x :: modify_back f (y :: rest)

/-- Lines 55-62 and 126-132: resolve `scope[0]` against `read_names`, then
`pop_front`. -/
def resolve_front (s : State) : State :=
  match s.scope with
  | [] => s
  | scope_item :: rest =>
    if scope_item.1 ∈ s.read_names then
      { s with write_queue := s.write_queue ++ [scope_item.2], scope := rest }
    else
      { s with scope := rest }

/-- The loop `for (const auto& val: write_queue)`: on a negative result of
`sam_write1` the function returns at once (`Except.error` carries the state at
that point). -/
def write_records (sam_write1 : Nat → Int) : List bam1_ptr → State → Except State State
  | [], s => Except.ok s
  | val :: vals, s =>
    if sam_write1 s.out.length < 0 then Except.error s
    else write_records sam_write1 vals { s with total := s.total + 1, out := s.out ++ [val] }

/-- Lines 66-74: write the queue out when it holds more than
`max_write_queue` records. -/
def flush_if_full (max_write_queue : Nat) (sam_write1 : Nat → Int) (s : State) :
    Except State State :=
  if s.write_queue.length > max_write_queue then
    match write_records sam_write1 s.write_queue s with
    | Except.error e => Except.error e
    | Except.ok s1 => Except.ok { s1 with write_queue := [] }
  else Except.ok s

/-- Lines 77-122: skip rule, hash assignment, push of the next placeholder and
classification of the alignment at the back of the scope. -/
def classify (hash : List Nat → Nat → Nat) (min_within_size : Nat) (clip_length : Int)
    (s : State) : State :=
  match s.scope.getLast? with
  | none => s
  | some back =>
    let aln := back.2.val
    if skipped aln then s
    else
      let precalculated_hash := hash aln.qname 0
      let s1 : State :=
        { s with
          scope := modify_back (fun it => (precalculated_hash, it.2)) s.scope
            ++ [(0, ⟨s.n_init, bam_init1⟩)],
          n_init := s.n_init + 1 }
      if precalculated_hash ∈ s1.read_names then s1
      else if marks_read min_within_size clip_length aln then
        { s1 with read_names := insert precalculated_hash s1.read_names }
      else s1

/-- One iteration of the `while` loop after `sam_read1` has read `r` into
`scope.back().second`. -/
def loop_body (max_scope max_write_queue : Nat) (sam_write1 : Nat → Int)
    (hash : List Nat → Nat → Nat) (min_within_size : Nat) (clip_length : Int)
    (s : State) (r : bam1_t) : Except State State :=
  let s1 : State := { s with scope := modify_back (fun it => (it.1, ⟨it.2.addr, r⟩)) s.scope }
  let s2 := if s1.scope.length > max_scope then resolve_front s1 else s1
  match flush_if_full max_write_queue sam_write1 s2 with
  | Except.error e => Except.error e
  | Except.ok s3 => Except.ok (classify hash min_within_size clip_length s3)

/-- The `while (sam_read1(...) >= 0)` loop over the records of the input. -/
def ingest (max_scope max_write_queue : Nat) (sam_write1 : Nat → Int)
    (hash : List Nat → Nat → Nat) (min_within_size : Nat) (clip_length : Int) :
    State → List bam1_t → Except State State
  | s, [] => Except.ok s
  | s, r :: rs =>
    match loop_body max_scope max_write_queue sam_write1 hash min_within_size clip_length s r with
    | Except.error e => Except.error e
    | Except.ok s1 =>
      ingest max_scope max_write_queue sam_write1 hash min_within_size clip_length s1 rs

/-- Lines 125-133: `while (scope.size() > 0)` resolves the front, once per
entry. -/
def drain (s : State) : State := resolve_front^[s.scope.length] s

/-- State before the loop: one placeholder with hash 0 in the scope. -/
def init_state : State :=
  { scope := [(0, ⟨0, bam_init1⟩)], write_queue := [], read_names := ∅,
    total := 0, out := [], n_init := 1 }

/-- The function with the two local constants taken as parameters. -/
def search_hts_alignments_with (max_scope max_write_queue : Nat) (io : Transport)
    (hash : List Nat → Nat → Nat) (min_within_size : Nat) (clip_length : Int)
    (threads : Int) : Outcome :=
  if threads > 1 ∧ io.hts_set_threads_in ≠ 0 then ⟨-1, []⟩
  else if io.sam_hdr_read = false then ⟨-1, []⟩
  else if io.hts_set_threads_out ≠ 0 then ⟨-1, []⟩
  else if io.sam_hdr_write ≠ 0 then ⟨-1, []⟩
  else
    match ingest max_scope max_write_queue io.sam_write1 hash min_within_size clip_length
        init_state io.records with
    | Except.error e => ⟨-1, e.out⟩
    | Except.ok s =>
      match write_records io.sam_write1 (drain s).write_queue (drain s) with
      | Except.error e => ⟨-1, e.out⟩
      | Except.ok s1 =>
        if io.hts_close_in ≠ 0 then ⟨-1, s1.out⟩
        else if io.hts_close_out < 0 then ⟨-1, s1.out⟩
        else ⟨to_int s1.total, s1.out⟩

/-- `search_hts_alignments` of the source: `max_scope = 100000`,
`max_write_queue = 500000`. -/
def search_hts_alignments (io : Transport) (hash : List Nat → Nat → Nat)
    (min_within_size : Nat) (clip_length : Int) (threads : Int) : Outcome :=
  search_hts_alignments_with max_scope max_write_queue io hash min_within_size clip_length
    threads

/-! ## Description of the result -/

/-- The records of the input that pass the skip rule, in input order. -/
def evaluated (input : List bam1_t) : List bam1_t := input.filter (fun r => !skipped r)

/-- Scope entries of consecutive evaluated records, the first one living in
record object number `i`. -/
def scope_entries (hash : List Nat → Nat → Nat) : Nat → List bam1_t → List (Nat × bam1_ptr)
  | _, [] => []
  | i, e :: es => (hash e.qname 0, ⟨i, e⟩) :: scope_entries hash (i + 1) es

/-- The hashes of the evaluated records `ev` whose evaluation finds evidence. -/
def interest_set (hash : List Nat → Nat → Nat) (min_within_size : Nat) (clip_length : Int)
    (ev : List bam1_t) : Finset Nat :=
  ((ev.filter (marks_read min_within_size clip_length)).map (fun e => hash e.qname 0)).toFinset

/-- An entry is kept when its hash is among the hashes marked by the evaluated
records in front of position `addr + max_scope`. -/
def kept (max_scope : Nat) (hash : List Nat → Nat → Nat) (min_within_size : Nat)
    (clip_length : Int) (ev : List bam1_t) (it : Nat × bam1_ptr) : Bool :=
  decide (it.1 ∈ interest_set hash min_within_size clip_length (ev.take (it.2.addr + max_scope)))

/-- Contents of the record object at the back of the scope when the input is
exhausted: the last record read if it was skipped, a fresh object otherwise. -/
def last_buf (input : List bam1_t) : bam1_t :=
  input.foldl (fun _ r => if skipped r then r else bam_init1) bam_init1

/-- The transport calls before the loop succeed. -/
def opens_ok (io : Transport) (threads : Int) : Prop :=
  (threads > 1 → io.hts_set_threads_in = 0) ∧ io.sam_hdr_read = true
    ∧ io.hts_set_threads_out = 0 ∧ io.sam_hdr_write = 0

/-- No call of `sam_write1` fails. -/
def writes_ok (io : Transport) : Prop := ∀ n, 0 ≤ io.sam_write1 n

/-- The records the run writes before the placeholder: the evaluated records
whose hash is marked by an evaluated record in front of position
`addr + max_scope`, each in the record object it was read into. -/
def kept_records (ms : Nat) (hash : List Nat → Nat → Nat) (mws : Nat) (clip : Int)
    (input : List bam1_t) : List bam1_ptr :=
  ((scope_entries hash 0 (evaluated input)).filter
    (kept ms hash mws clip (evaluated input))).map (fun it => it.2)

/-- The placeholder at the back of the scope is written when hash 0 is in the
interest set. -/
def trailing (hash : List Nat → Nat → Nat) (mws : Nat) (clip : Int)
    (input : List bam1_t) : List bam1_ptr :=
  if 0 ∈ interest_set hash mws clip (evaluated input) then
    [⟨(evaluated input).length, last_buf input⟩]
  else []

/-- Invariant of the read loop.  The evaluated records read so far are
`popped ++ window`: `popped` have left the scope, `window` are still in it,
followed by the placeholder whose record object holds `buf`. -/
structure Core (ms : Nat) (hash : List Nat → Nat → Nat) (mws : Nat) (clip : Int)
    (popped window : List bam1_t) (buf : bam1_t) (s : State) : Prop where
  pop_bound : popped = [] ∨ popped.length + ms ≤ (popped ++ window).length + 1
  scope_eq : s.scope =
    scope_entries hash popped.length window ++ [(0, ⟨(popped ++ window).length, buf⟩)]
  emitted_eq : s.out ++ s.write_queue =
    ((scope_entries hash 0 popped).filter (kept ms hash mws clip (popped ++ window))).map
      (fun it => it.2)
  names_eq : s.read_names = interest_set hash mws clip (popped ++ window)
  n_init_eq : s.n_init = (popped ++ window).length + 1
  total_eq : s.total = s.out.length

/-! ## The classification in the words of the specification -/

/-- The skip rule as the specification words it: the record is a duplicate or
unmapped (flag bits 1024, 4), has no CIGAR, or has an empty name. -/
def spec_skipped (r : bam1_t) : Prop :=
  r.flag &&& 1028 ≠ 0 ∨ r.cigar.length = 0 ∨ r.qname.length = 0

/-- The evidence as the specification words it: paired and not properly
paired, or supplementary, or an SA tag, or a soft clip of length at least a
positive `clip_length`, or an insertion or deletion of length at least
`min_within_size`. -/
def spec_evidence (min_within_size : Nat) (clip_length : Int) (r : bam1_t) : Prop :=
  (r.flag &&& 1 ≠ 0 ∧ r.flag &&& 2 = 0) ∨ r.flag &&& 2048 ≠ 0 ∨ (83, 65) ∈ r.aux
    ∨ (∃ c ∈ r.cigar, c.1 = BAM_CSOFT_CLIP ∧ clip_length > 0 ∧ (c.2 : Int) ≥ clip_length)
    ∨ (∃ c ∈ r.cigar, (c.1 = BAM_CINS ∨ c.1 = BAM_CDEL) ∧ c.2 ≥ min_within_size)

instance (r : bam1_t) : Decidable (spec_skipped r) := by
  unfold spec_skipped; infer_instance

instance (min_within_size : Nat) (clip_length : Int) (r : bam1_t) :
    Decidable (spec_evidence min_within_size clip_length r) := by
  unfold spec_evidence; infer_instance

/-! ## Sample inputs -/

/-- A transport on which every call succeeds, delivering `records`. -/
def quiet_transport (records : List bam1_t) : Transport :=
  { fp_in_open := true, hts_set_threads_in := 0, sam_hdr_read := true, f_out_open := true,
    hts_set_threads_out := 0, sam_hdr_write := 0, records := records,
    sam_write1 := fun _ => 0, hts_close_in := 0, hts_close_out := 0 }

/-- A sample fingerprint function: the sum of the name bytes plus the seed. -/
def sum_hash (name : List Nat) (seed : Nat) : Nat := name.sum + seed

/-- Read "A", first of a proper pair, CIGAR 100M. -/
def rec_A1 : bam1_t := ⟨67, [65], [(0, 100)], []⟩

/-- Read "A", second of a proper pair, CIGAR 70M30S. -/
def rec_A2 : bam1_t := ⟨131, [65], [(0, 70), (BAM_CSOFT_CLIP, 30)], []⟩

/-- Read "B", first of a proper pair, CIGAR 100M. -/
def rec_B : bam1_t := ⟨67, [66], [(0, 100)], []⟩

/-- A fingerprint function that sends the name "A" to the seed, here 0. -/
def hash_A_zero (name : List Nat) (seed : Nat) : Nat :=
  if name = [65] then seed else name.sum + seed + 1

/-- Read "A", paired but not properly paired, CIGAR 100M. -/
def rec_D : bam1_t := ⟨65, [65], [(0, 100)], []⟩

/-- Read "A", unmapped mate (flag bit 4), CIGAR 100M. -/
def rec_S : bam1_t := ⟨69, [65], [(0, 100)], []⟩

/-- Read "C", proper pair, CIGAR 50M10D50M. -/
def rec_I : bam1_t := ⟨67, [67], [(0, 50), (BAM_CDEL, 10), (0, 50)], []⟩

/-- The state at line 77 of the first iteration, `r` just read into the
placeholder. -/
def state_reading (r : bam1_t) : State :=
  { init_state with scope := [(0, ⟨0, r⟩)] }

/-! ## Points inside one iteration -/

/-- The state at line 53: `sam_read1` has stored `r` in `scope.back().second`. -/
def read_into_back (s : State) (r : bam1_t) : State :=
  { s with scope := modify_back (fun it => (it.1, ⟨it.2.addr, r⟩)) s.scope }

/-- The state at line 64: the front entry has been resolved and popped when
the scope held more than `max_scope` entries. -/
def resolve_overflow (max_scope : Nat) (s : State) : State :=
  if s.scope.length > max_scope then resolve_front s else s

/-! ## The variant without the short-circuit -/

/-- The variant of `classify` that the specification compares with: the guard
`read_names.find(precalculated_hash) == read_names.end()` of line 89 is
dropped, so the evidence is evaluated for every record that passes the skip
rule. -/
def classify_always (hash : List Nat → Nat → Nat) (min_within_size : Nat) (clip_length : Int)
    (s : State) : State :=
  match s.scope.getLast? with
  | none => s
  | some back =>
    let aln := back.2.val
    if skipped aln then s
    else
      let precalculated_hash := hash aln.qname 0
      let s1 : State :=
        { s with
          scope := modify_back (fun it => (precalculated_hash, it.2)) s.scope
            ++ [(0, ⟨s.n_init, bam_init1⟩)],
          n_init := s.n_init + 1 }
      if marks_read min_within_size clip_length aln then
        { s1 with read_names := insert precalculated_hash s1.read_names }
      else s1

/-- The loop body of the variant. -/
def loop_body_always (max_scope max_write_queue : Nat) (sam_write1 : Nat → Int)
    (hash : List Nat → Nat → Nat) (min_within_size : Nat) (clip_length : Int)
    (s : State) (r : bam1_t) : Except State State :=
  let s1 : State := { s with scope := modify_back (fun it => (it.1, ⟨it.2.addr, r⟩)) s.scope }
  let s2 := if s1.scope.length > max_scope then resolve_front s1 else s1
  match flush_if_full max_write_queue sam_write1 s2 with
  | Except.error e => Except.error e
  | Except.ok s3 => Except.ok (classify_always hash min_within_size clip_length s3)

/-- The read loop of the variant. -/
def ingest_always (max_scope max_write_queue : Nat) (sam_write1 : Nat → Int)
    (hash : List Nat → Nat → Nat) (min_within_size : Nat) (clip_length : Int) :
    State → List bam1_t → Except State State
  | s, [] => Except.ok s
  | s, r :: rs =>
    match loop_body_always max_scope max_write_queue sam_write1 hash min_within_size
        clip_length s r with
    | Except.error e => Except.error e
    | Except.ok s1 =>
      ingest_always max_scope max_write_queue sam_write1 hash min_within_size clip_length s1 rs

/-- The variant of `search_hts_alignments` without the short-circuit. -/
def search_hts_alignments_always (io : Transport) (hash : List Nat → Nat → Nat)
    (min_within_size : Nat) (clip_length : Int) (threads : Int) : Outcome :=
  if threads > 1 ∧ io.hts_set_threads_in ≠ 0 then ⟨-1, []⟩
  else if io.sam_hdr_read = false then ⟨-1, []⟩
  else if io.hts_set_threads_out ≠ 0 then ⟨-1, []⟩
  else if io.sam_hdr_write ≠ 0 then ⟨-1, []⟩
  else
    match ingest_always max_scope max_write_queue io.sam_write1 hash min_within_size
        clip_length init_state io.records with
    | Except.error e => ⟨-1, e.out⟩
    | Except.ok s =>
      match write_records io.sam_write1 (drain s).write_queue (drain s) with
      | Except.error e => ⟨-1, e.out⟩
      | Except.ok s1 =>
        if io.hts_close_in ≠ 0 then ⟨-1, s1.out⟩
        else if io.hts_close_out < 0 then ⟨-1, s1.out⟩
        else ⟨to_int s1.total, s1.out⟩

/-- The transport `io` with every `sam_write1` succeeding. -/
def without_write_failure (io : Transport) : Transport :=
  { io with sam_write1 := fun _ => 0 }

/-- The quiet transport whose write after `k0` successful writes fails. -/
def failing_transport (records : List bam1_t) (k0 : Nat) : Transport :=
  { quiet_transport records with sam_write1 := fun n => if n = k0 then -1 else 0 }

/-- A stream of 100001 evaluated records: the unremarkable "A", 99999 records
"B", then the soft-clipped "A" at position 100000. -/
def far_mate_stream : List bam1_t :=
  rec_A1 :: (List.replicate 99999 rec_B ++ [rec_A2])

/-- A state at the loop head with window size 1 exhausted: the entry of the
unremarkable "A" in front of the placeholder, nothing marked yet. -/
def state_full_window : State :=
  { init_state with scope := [(65, ⟨0, rec_A1⟩), (0, ⟨1, bam_init1⟩)], n_init := 2 }

/-! ## Lemmas on the containers -/

theorem modify_back_concat {α : Type} (f : α → α) (xs : List α) (b : α) :
    modify_back f (xs ++ [b]) = xs ++ [f b] := by
  induction xs with
  | nil => rfl
  | cons x xs ih =>
    cases xs with
    | nil => rfl
    | cons y ys =>
      show x :: modify_back f (y :: (ys ++ [b])) = x :: (y :: ys ++ [f b])
      rw [← List.cons_append, ih]

theorem getLast?_concat_eq {α : Type} (xs : List α) (b : α) :
    (xs ++ [b]).getLast? = some b := by
  simp

theorem scope_entries_length (hash : List Nat → Nat → Nat) (i : Nat) (ev : List bam1_t) :
    (scope_entries hash i ev).length = ev.length := by
  induction ev generalizing i with
  | nil => rfl
  | cons e es ih => simp [scope_entries, ih]

theorem scope_entries_append (hash : List Nat → Nat → Nat) (i : Nat) (a b : List bam1_t) :
    scope_entries hash i (a ++ b) = scope_entries hash i a ++ scope_entries hash (i + a.length) b := by
  induction a generalizing i with
  | nil => simp [scope_entries]
  | cons e es ih =>
    have e1 : i + 1 + es.length = i + (es.length + 1) := by omega
    show scope_entries hash i (e :: (es ++ b)) = _
    simp only [scope_entries, ih, List.length_cons, List.cons_append, e1]

theorem mem_scope_entries {hash : List Nat → Nat → Nat} {i : Nat} {ev : List bam1_t}
    {it : Nat × bam1_ptr} (h : it ∈ scope_entries hash i ev) :
    i ≤ it.2.addr ∧ it.2.addr < i + ev.length
      ∧ ev[it.2.addr - i]? = some it.2.val ∧ it.1 = hash it.2.val.qname 0 := by
  induction ev generalizing i with
  | nil => simp [scope_entries] at h
  | cons e es ih =>
    simp only [scope_entries, List.mem_cons] at h
    rcases h with h | h
    · subst h; simp
    · obtain ⟨h1, h2, h3, h4⟩ := ih h
      refine ⟨by omega, by simp only [List.length_cons]; omega, ?_, h4⟩
      rw [show it.2.addr - i = (it.2.addr - (i + 1)) + 1 by omega]
      simpa using h3

theorem scope_entries_mem (hash : List Nat → Nat → Nat) (i : Nat) {ev : List bam1_t}
    {j : Nat} {e : bam1_t} (h : ev[j]? = some e) :
    (hash e.qname 0, (⟨i + j, e⟩ : bam1_ptr)) ∈ scope_entries hash i ev := by
  induction ev generalizing i j with
  | nil => simp at h
  | cons x xs ih =>
    cases j with
    | zero =>
      simp at h; subst h; simp [scope_entries]
    | succ j =>
      simp at h
      have := ih (i + 1) h
      rw [show i + 1 + j = i + (j + 1) by omega] at this
      simp [scope_entries, this]

theorem mem_interest_set {hash : List Nat → Nat → Nat} {mws : Nat} {clip : Int}
    {ev : List bam1_t} {f : Nat} :
    f ∈ interest_set hash mws clip ev ↔
      ∃ e ∈ ev, marks_read mws clip e = true ∧ hash e.qname 0 = f := by
  unfold interest_set
  rw [List.mem_toFinset, List.mem_map]
  simp only [List.mem_filter]
  constructor
  · rintro ⟨e, ⟨he, hm⟩, hf⟩
    exact ⟨e, he, hm, hf⟩
  · rintro ⟨e, he, hm, hf⟩
    exact ⟨e, ⟨he, hm⟩, hf⟩

theorem interest_set_concat (hash : List Nat → Nat → Nat) (mws : Nat) (clip : Int)
    (ev : List bam1_t) (r : bam1_t) :
    interest_set hash mws clip (ev ++ [r]) =
      if marks_read mws clip r then insert (hash r.qname 0) (interest_set hash mws clip ev)
      else interest_set hash mws clip ev := by
  ext f
  by_cases h : marks_read mws clip r = true
  · rw [if_pos h]
    simp only [Finset.mem_insert, mem_interest_set, List.mem_append, List.mem_singleton]
    constructor
    · rintro ⟨e, he | he, hm, hf⟩
      · exact Or.inr ⟨e, he, hm, hf⟩
      · subst he; exact Or.inl hf.symm
    · rintro (hf | ⟨e, he, hm, hf⟩)
      · exact ⟨r, Or.inr rfl, h, hf.symm⟩
      · exact ⟨e, Or.inl he, hm, hf⟩
  · rw [if_neg h]
    simp only [mem_interest_set, List.mem_append, List.mem_singleton]
    constructor
    · rintro ⟨e, he | he, hm, hf⟩
      · exact ⟨e, he, hm, hf⟩
      · subst he; exact absurd hm h
    · rintro ⟨e, he, hm, hf⟩
      exact ⟨e, Or.inl he, hm, hf⟩

/-! ## The loop invariant holds -/

theorem core_init (ms : Nat) (hash : List Nat → Nat → Nat) (mws : Nat) (clip : Int) :
    Core ms hash mws clip [] [] bam_init1 init_state := by
  constructor <;> simp [init_state, scope_entries, interest_set]

theorem core_read {ms : Nat} {hash : List Nat → Nat → Nat} {mws : Nat} {clip : Int}
    {popped window : List bam1_t} {buf : bam1_t} {s : State}
    (h : Core ms hash mws clip popped window buf s) (r : bam1_t) :
    Core ms hash mws clip popped window r
      { s with scope := modify_back (fun it => (it.1, ⟨it.2.addr, r⟩)) s.scope } := by
  constructor
  · exact h.pop_bound
  · show modify_back _ s.scope = _
    rw [h.scope_eq, modify_back_concat]
  · exact h.emitted_eq
  · exact h.names_eq
  · exact h.n_init_eq
  · exact h.total_eq

theorem kept_at_front {ms : Nat} {hash : List Nat → Nat → Nat} {mws : Nat} {clip : Int}
    {popped ws : List bam1_t} {w : bam1_t} (hlen : (w :: ws).length = ms) :
    kept ms hash mws clip (popped ++ w :: ws) (hash w.qname 0, ⟨popped.length, w⟩)
      = decide (hash w.qname 0 ∈ interest_set hash mws clip (popped ++ w :: ws)) := by
  unfold kept
  have : (popped ++ w :: ws).length ≤ popped.length + ms := by
    simp only [List.length_append]; omega
  simp only [List.take_of_length_le this]

theorem core_resolve {ms : Nat} {hash : List Nat → Nat → Nat} {mws : Nat} {clip : Int}
    {popped window : List bam1_t} {r : bam1_t} {s : State}
    (h : Core ms hash mws clip popped window r s) (hms : 0 < ms) (hwin : window.length ≤ ms) :
    ∃ popped1 window1, popped1 ++ window1 = popped ++ window ∧ window1.length + 1 ≤ ms
      ∧ Core ms hash mws clip popped1 window1 r
          (if s.scope.length > ms then resolve_front s else s) := by
  have hlen : s.scope.length = window.length + 1 := by
    rw [h.scope_eq]; simp [scope_entries_length]
  by_cases hgt : s.scope.length > ms
  · rw [if_pos hgt]
    cases window with
    | nil => simp at hlen; omega
    | cons w ws =>
      have hwl : (w :: ws).length = ms := by omega
      have hsc : s.scope = (hash w.qname 0, ⟨popped.length, w⟩) ::
          (scope_entries hash (popped.length + 1) ws
            ++ [(0, ⟨(popped ++ w :: ws).length, r⟩)]) := by
        rw [h.scope_eq]; rfl
      have hpop : scope_entries hash 0 (popped ++ [w])
          = scope_entries hash 0 popped ++ [(hash w.qname 0, ⟨popped.length, w⟩)] := by
        rw [scope_entries_append]; simp [scope_entries]
      have hcat : (popped ++ [w]) ++ ws = popped ++ w :: ws := by simp
      refine ⟨popped ++ [w], ws, hcat, by simp only [List.length_cons] at hwl; omega, ?_⟩
      have hk := @kept_at_front ms hash mws clip popped ws w hwl
      constructor
      · right
        simp only [List.length_append, List.length_cons, List.length_nil] at hwl ⊢
        omega
      · unfold resolve_front
        rw [hsc]
        by_cases hm : hash w.qname 0 ∈ s.read_names <;>
          simp [hm, hcat]
      · rw [hcat, hpop, List.filter_append, List.map_append, ← h.emitted_eq]
        unfold resolve_front
        rw [hsc]
        by_cases hm : hash w.qname 0 ∈ s.read_names
        · have hm2 := hm
          rw [h.names_eq] at hm2
          simp [hm, hk, hm2, List.append_assoc]
        · have hm2 := hm
          rw [h.names_eq] at hm2
          simp [hm, hk, hm2]
      · rw [hcat, ← h.names_eq]
        unfold resolve_front
        rw [hsc]
        by_cases hm : hash w.qname 0 ∈ s.read_names <;> simp [hm]
      · rw [hcat, ← h.n_init_eq]
        unfold resolve_front
        rw [hsc]
        by_cases hm : hash w.qname 0 ∈ s.read_names <;> simp [hm]
      · unfold resolve_front
        rw [hsc]
        by_cases hm : hash w.qname 0 ∈ s.read_names <;> simp [hm, h.total_eq]
  · rw [if_neg hgt]
    exact ⟨popped, window, rfl, by omega, h⟩

theorem write_records_ok {w : Nat → Int} (hw : ∀ n, 0 ≤ w n) (q : List bam1_ptr) (s : State) :
    write_records w q s
      = Except.ok { s with total := s.total + q.length, out := s.out ++ q } := by
  induction q generalizing s with
  | nil => simp [write_records]
  | cons v vs ih =>
    have hv : ¬ w s.out.length < 0 := not_lt.mpr (hw _)
    simp only [write_records, if_neg hv, ih, List.length_cons, List.append_assoc,
      List.singleton_append]
    congr 2
    omega

theorem core_flush {ms : Nat} {hash : List Nat → Nat → Nat} {mws : Nat} {clip : Int}
    {popped window : List bam1_t} {r : bam1_t} {s : State} {w : Nat → Int}
    (h : Core ms hash mws clip popped window r s) (hw : ∀ n, 0 ≤ w n) (mq : Nat) :
    ∃ s1, flush_if_full mq w s = Except.ok s1 ∧ Core ms hash mws clip popped window r s1 := by
  unfold flush_if_full
  by_cases hq : s.write_queue.length > mq
  · rw [if_pos hq, write_records_ok hw]
    refine ⟨_, rfl, ?_⟩
    constructor
    · exact h.pop_bound
    · exact h.scope_eq
    · simpa using h.emitted_eq
    · exact h.names_eq
    · exact h.n_init_eq
    · simp [h.total_eq]
  · rw [if_neg hq]
    exact ⟨s, rfl, h⟩

theorem kept_concat {ms : Nat} {hash : List Nat → Nat → Nat} {mws : Nat} {clip : Int}
    {popped window : List bam1_t} (r : bam1_t)
    (hb : popped = [] ∨ popped.length + ms ≤ (popped ++ window).length + 1)
    {it : Nat × bam1_ptr} (hit : it ∈ scope_entries hash 0 popped) :
    kept ms hash mws clip (popped ++ (window ++ [r])) it
      = kept ms hash mws clip (popped ++ window) it := by
  have hlt := (mem_scope_entries hit).2.1
  have hle : it.2.addr + ms ≤ (popped ++ window).length := by
    rcases hb with hb | hb
    · subst hb; simp at hlt
    · omega
  unfold kept
  rw [← List.append_assoc, List.take_append_of_le_length hle]

theorem core_classify_skipped {ms : Nat} {hash : List Nat → Nat → Nat} {mws : Nat} {clip : Int}
    {popped window : List bam1_t} {r : bam1_t} {s : State}
    (h : Core ms hash mws clip popped window r s) (hs : skipped r = true) :
    classify hash mws clip s = s := by
  unfold classify
  rw [h.scope_eq, getLast?_concat_eq]
  simp [hs]

theorem core_classify_evaluated {ms : Nat} {hash : List Nat → Nat → Nat} {mws : Nat}
    {clip : Int} {popped window : List bam1_t} {r : bam1_t} {s : State}
    (h : Core ms hash mws clip popped window r s) (hs : skipped r = false) :
    Core ms hash mws clip popped (window ++ [r]) bam_init1 (classify hash mws clip s) := by
  have hcl : classify hash mws clip s =
      (let s1 : State :=
        { s with
          scope := scope_entries hash popped.length (window ++ [r])
            ++ [(0, ⟨(popped ++ (window ++ [r])).length, bam_init1⟩)],
          n_init := s.n_init + 1 }
       if hash r.qname 0 ∈ s.read_names then s1
       else if marks_read mws clip r then
         { s1 with read_names := insert (hash r.qname 0) s.read_names }
       else s1) := by
    unfold classify
    rw [h.scope_eq, getLast?_concat_eq]
    simp only [hs, Bool.false_eq_true, if_false, modify_back_concat, scope_entries_append,
      scope_entries, h.n_init_eq, List.length_append, List.length_cons, List.length_nil,
      List.append_assoc, List.singleton_append, Nat.add_assoc, Nat.zero_add]
  have hnames : interest_set hash mws clip (popped ++ (window ++ [r])) =
      (if hash r.qname 0 ∈ s.read_names then s.read_names
       else if marks_read mws clip r then insert (hash r.qname 0) s.read_names
       else s.read_names) := by
    rw [← List.append_assoc, interest_set_concat, ← h.names_eq]
    by_cases hm : hash r.qname 0 ∈ s.read_names
    · by_cases hk : marks_read mws clip r = true
      · simp [hm, hk]
      · simp [hm, hk]
    · simp [hm]
  have hemit : ((scope_entries hash 0 popped).filter
      (kept ms hash mws clip (popped ++ (window ++ [r])))).map (fun it => it.2)
      = s.out ++ s.write_queue := by
    rw [h.emitted_eq]
    congr 1
    apply List.filter_congr
    intro it hit
    exact kept_concat r h.pop_bound hit
  rw [hcl]
  constructor
  · rcases h.pop_bound with hb | hb
    · exact Or.inl hb
    · right
      simp only [List.length_append, List.length_cons, List.length_nil] at hb ⊢
      omega
  · dsimp only
    split_ifs <;> rfl
  · rw [hemit]
    dsimp only
    split_ifs <;> rfl
  · rw [hnames]
    dsimp only
    split_ifs <;> rfl
  · dsimp only
    have := h.n_init_eq
    simp only [List.length_append, List.length_cons, List.length_nil] at this ⊢
    split_ifs <;> simp [this] <;> omega
  · dsimp only
    split_ifs <;> exact h.total_eq

theorem evaluated_concat (pre : List bam1_t) (r : bam1_t) :
    evaluated (pre ++ [r]) = if skipped r then evaluated pre else evaluated pre ++ [r] := by
  unfold evaluated
  by_cases hs : skipped r = true <;> simp [List.filter_append, List.filter_cons, hs]

theorem last_buf_concat (pre : List bam1_t) (r : bam1_t) :
    last_buf (pre ++ [r]) = if skipped r then r else bam_init1 := by
  simp [last_buf, List.foldl_append]

theorem loop_body_inv {ms : Nat} {hash : List Nat → Nat → Nat} {mws : Nat} {clip : Int}
    {pre popped window : List bam1_t} {s : State} {w : Nat → Int} (mq : Nat)
    (hms : 0 < ms) (hw : ∀ n, 0 ≤ w n)
    (hev : evaluated pre = popped ++ window) (hwin : window.length ≤ ms)
    (h : Core ms hash mws clip popped window (last_buf pre) s) (r : bam1_t) :
    ∃ s1 popped1 window1, loop_body ms mq w hash mws clip s r = Except.ok s1
      ∧ evaluated (pre ++ [r]) = popped1 ++ window1 ∧ window1.length ≤ ms
      ∧ Core ms hash mws clip popped1 window1 (last_buf (pre ++ [r])) s1 := by
  obtain ⟨p1, w1, hcat, hw1, hC1⟩ := core_resolve (core_read h r) hms hwin
  obtain ⟨s3, hfl, hC3⟩ := core_flush hC1 hw mq
  unfold loop_body
  simp only [hfl]
  rw [evaluated_concat, last_buf_concat, hev, ← hcat]
  by_cases hs : skipped r = true
  · rw [core_classify_skipped hC3 hs]
    simp only [hs, if_true]
    exact ⟨s3, p1, w1, rfl, rfl, by omega, hC3⟩
  · have hs2 : skipped r = false := by simpa using hs
    simp only [hs2, Bool.false_eq_true, if_false]
    refine ⟨_, p1, w1 ++ [r], rfl, by simp, by simp; omega, ?_⟩
    exact core_classify_evaluated hC3 hs2

theorem ingest_append (ms mq : Nat) (w : Nat → Int) (hash : List Nat → Nat → Nat)
    (mws : Nat) (clip : Int) (a b : List bam1_t) (s : State) :
    ingest ms mq w hash mws clip s (a ++ b) =
      match ingest ms mq w hash mws clip s a with
      | Except.error e => Except.error e
      | Except.ok s1 => ingest ms mq w hash mws clip s1 b := by
  induction a generalizing s with
  | nil => rfl
  | cons r rs ih =>
    simp only [List.cons_append, ingest]
    cases loop_body ms mq w hash mws clip s r with
    | error e => rfl
    | ok s1 => exact ih s1

theorem ingest_inv {ms : Nat} (hash : List Nat → Nat → Nat) (mws : Nat) (clip : Int)
    {w : Nat → Int} (mq : Nat) (hms : 0 < ms) (hw : ∀ n, 0 ≤ w n) (input : List bam1_t) :
    ∃ s popped window, ingest ms mq w hash mws clip init_state input = Except.ok s
      ∧ evaluated input = popped ++ window ∧ window.length ≤ ms
      ∧ Core ms hash mws clip popped window (last_buf input) s := by
  induction input using List.reverseRecOn with
  | nil => exact ⟨init_state, [], [], rfl, rfl, Nat.zero_le _, core_init ms hash mws clip⟩
  | append_singleton pre r ih =>
    obtain ⟨s, popped, window, hin, hev, hwin, hC⟩ := ih
    obtain ⟨s1, p1, w1, hb, hev1, hwin1, hC1⟩ := loop_body_inv mq hms hw hev hwin hC r
    refine ⟨s1, p1, w1, ?_, hev1, hwin1, hC1⟩
    rw [ingest_append, hin]
    simp only [ingest, hb]

theorem drain_eq (l : List (Nat × bam1_ptr)) (s : State) (hl : s.scope = l) :
    resolve_front^[l.length] s =
      { s with scope := [],
               write_queue := s.write_queue
                 ++ (l.filter (fun it => decide (it.1 ∈ s.read_names))).map (fun it => it.2) } := by
  induction l generalizing s with
  | nil =>
    cases s
    simp only at hl
    subst hl
    simp
  | cons x l ih =>
    rw [List.length_cons, Function.iterate_succ_apply]
    by_cases hx : x.1 ∈ s.read_names
    · have hr : resolve_front s
          = { s with write_queue := s.write_queue ++ [x.2], scope := l } := by
        unfold resolve_front; rw [hl]; simp [hx]
      rw [hr, ih _ rfl]
      simp [hx]
    · have hr : resolve_front s = { s with scope := l } := by
        unfold resolve_front; rw [hl]; simp [hx]
      rw [hr, ih _ rfl]
      simp [hx]

theorem kept_in_window {ms : Nat} {hash : List Nat → Nat → Nat} {mws : Nat} {clip : Int}
    {popped window : List bam1_t} (hwin : window.length ≤ ms)
    {it : Nat × bam1_ptr} (hit : it ∈ scope_entries hash popped.length window) :
    kept ms hash mws clip (popped ++ window) it
      = decide (it.1 ∈ interest_set hash mws clip (popped ++ window)) := by
  have hge := (mem_scope_entries hit).1
  have hle : (popped ++ window).length ≤ it.2.addr + ms := by
    simp only [List.length_append]; omega
  unfold kept
  rw [List.take_of_length_le hle]

theorem drain_core {ms : Nat} {hash : List Nat → Nat → Nat} {mws : Nat} {clip : Int}
    {input popped window : List bam1_t} {s : State}
    (hev : evaluated input = popped ++ window) (hwin : window.length ≤ ms)
    (h : Core ms hash mws clip popped window (last_buf input) s) :
    (drain s).out ++ (drain s).write_queue
        = kept_records ms hash mws clip input ++ trailing hash mws clip input
      ∧ (drain s).out = s.out ∧ (drain s).total = s.out.length := by
  unfold drain
  rw [drain_eq _ s rfl]
  refine ⟨?_, rfl, h.total_eq⟩
  show s.out ++ (s.write_queue ++ _) = _
  rw [← List.append_assoc, h.emitted_eq, h.scope_eq, h.names_eq]
  unfold kept_records trailing
  rw [hev, scope_entries_append, List.filter_append, List.map_append, List.filter_append,
    List.map_append, List.append_assoc, Nat.zero_add]
  congr 1
  congr 1
  · congr 1
    apply List.filter_congr
    intro it hit
    exact (kept_in_window hwin hit).symm
  · by_cases h0 : 0 ∈ interest_set hash mws clip (popped ++ window) <;> simp [h0]

/-- Closed form of a run without transport failure before or inside the loop:
the written records, and the returned value in terms of them. -/
theorem search_result {ms : Nat} (mq : Nat) {io : Transport} (hash : List Nat → Nat → Nat)
    (mws : Nat) (clip : Int) {threads : Int} (hms : 0 < ms) (hopen : opens_ok io threads)
    (hw : writes_ok io) :
    (search_hts_alignments_with ms mq io hash mws clip threads).written
        = kept_records ms hash mws clip io.records ++ trailing hash mws clip io.records
      ∧ (search_hts_alignments_with ms mq io hash mws clip threads).ret
        = if io.hts_close_in ≠ 0 ∨ io.hts_close_out < 0 then -1
          else to_int
            (kept_records ms hash mws clip io.records ++ trailing hash mws clip io.records).length := by
  obtain ⟨h1, h2, h3, h4⟩ := hopen
  obtain ⟨s, popped, window, hin, hev, hwin, hC⟩ :=
    ingest_inv hash mws clip mq hms hw io.records
  obtain ⟨hd1, hd2, hd3⟩ := drain_core hev hwin hC
  have hn1 : ¬ (threads > 1 ∧ io.hts_set_threads_in ≠ 0) := fun hh => hh.2 (h1 hh.1)
  unfold search_hts_alignments_with
  rw [if_neg hn1]
  simp only [h2, h3, h4, hin, write_records_ok hw, Bool.true_eq_false, if_false, ne_eq,
    not_true_eq_false]
  rw [hd1, hd3, ← hd2, ← List.length_append, hd1]
  by_cases hc1 : io.hts_close_in = 0
  · by_cases hc2 : io.hts_close_out < 0
    · simp [hc1, hc2]
    · simp [hc1, hc2]
  · simp [hc1]

/-! ## Which record objects are written -/

theorem mem_take_iff_index {α : Type} {l : List α} {n : Nat} {a : α} :
    a ∈ l.take n ↔ ∃ k, k < n ∧ l[k]? = some a := by
  rw [List.mem_iff_getElem?]
  constructor
  · rintro ⟨k, hk⟩
    rw [List.getElem?_take] at hk
    by_cases hlt : k < n
    · rw [if_pos hlt] at hk; exact ⟨k, hlt, hk⟩
    · rw [if_neg hlt] at hk; cases hk
  · rintro ⟨k, hlt, hk⟩
    exact ⟨k, by rw [List.getElem?_take, if_pos hlt]; exact hk⟩

theorem mem_kept_records {ms : Nat} {hash : List Nat → Nat → Nat} {mws : Nat} {clip : Int}
    {input : List bam1_t} {p : bam1_ptr} :
    p ∈ kept_records ms hash mws clip input ↔
      (evaluated input)[p.addr]? = some p.val
        ∧ ∃ k e, k < p.addr + ms ∧ (evaluated input)[k]? = some e
            ∧ marks_read mws clip e = true ∧ hash e.qname 0 = hash p.val.qname 0 := by
  unfold kept_records
  rw [List.mem_map]
  constructor
  · rintro ⟨it, hit, rfl⟩
    rw [List.mem_filter] at hit
    obtain ⟨hmem, hk⟩ := hit
    obtain ⟨_, _, hget, hh⟩ := mem_scope_entries hmem
    refine ⟨by simpa using hget, ?_⟩
    unfold kept at hk
    rw [decide_eq_true_eq, mem_interest_set] at hk
    obtain ⟨e, he, hm, hf⟩ := hk
    obtain ⟨k, hlt, hke⟩ := mem_take_iff_index.mp he
    exact ⟨k, e, hlt, hke, hm, by rw [hf, hh]⟩
  · rintro ⟨hget, k, e, hlt, hke, hm, hf⟩
    refine ⟨(hash p.val.qname 0, p), ?_, rfl⟩
    rw [List.mem_filter]
    constructor
    · have := scope_entries_mem hash 0 hget
      rw [Nat.zero_add] at this
      exact this
    · unfold kept
      rw [decide_eq_true_eq, mem_interest_set]
      exact ⟨e, mem_take_iff_index.mpr ⟨k, hlt, hke⟩, hm, hf⟩

theorem mem_trailing {hash : List Nat → Nat → Nat} {mws : Nat} {clip : Int}
    {input : List bam1_t} {p : bam1_ptr} (h : p ∈ trailing hash mws clip input) :
    p.addr = (evaluated input).length ∧ p.val = last_buf input
      ∧ 0 ∈ interest_set hash mws clip (evaluated input) := by
  unfold trailing at h
  by_cases h0 : 0 ∈ interest_set hash mws clip (evaluated input)
  · rw [if_pos h0, List.mem_singleton] at h
    subst h
    exact ⟨rfl, rfl, h0⟩
  · rw [if_neg h0] at h
    cases h

theorem max_scope_pos : 0 < max_scope := by
  unfold max_scope; omega

theorem quiet_opens_ok (records : List bam1_t) (threads : Int) :
    opens_ok (quiet_transport records) threads :=
  ⟨fun _ => rfl, rfl, rfl, rfl⟩

theorem quiet_writes_ok (records : List bam1_t) : writes_ok (quiet_transport records) :=
  fun _ => Int.le_refl 0

theorem scope_entries_map_val (hash : List Nat → Nat → Nat) (i : Nat) (ev : List bam1_t) :
    (scope_entries hash i ev).map (fun it => it.2.val) = ev := by
  induction ev generalizing i with
  | nil => rfl
  | cons e es ih => simp [scope_entries, ih]

theorem scope_entries_pairwise (hash : List Nat → Nat → Nat) (i : Nat) (ev : List bam1_t) :
    (scope_entries hash i ev).Pairwise (fun x y => x.2.addr < y.2.addr) := by
  induction ev generalizing i with
  | nil => exact List.Pairwise.nil
  | cons e es ih =>
    refine List.Pairwise.cons ?_ (ih (i + 1))
    intro y hy
    have := (mem_scope_entries hy).1
    show i < y.2.addr
    omega

theorem kept_records_pairwise (ms : Nat) (hash : List Nat → Nat → Nat) (mws : Nat) (clip : Int)
    (input : List bam1_t) :
    ((kept_records ms hash mws clip input).map (fun p => p.addr)).Pairwise (fun x y => x < y) := by
  unfold kept_records
  rw [List.map_map, List.pairwise_map]
  exact (scope_entries_pairwise hash 0 _).filter _

theorem kept_records_sublist (ms : Nat) (hash : List Nat → Nat → Nat) (mws : Nat) (clip : Int)
    (input : List bam1_t) :
    ((kept_records ms hash mws clip input).map (fun p => p.val)).Sublist (evaluated input) := by
  unfold kept_records
  rw [List.map_map]
  have h := (List.filter_sublist (p := kept ms hash mws clip (evaluated input))
    (scope_entries hash 0 (evaluated input))).map (fun it => it.2.val)
  rw [scope_entries_map_val] at h
  exact h

theorem evaluated_last_buf_sublist (input : List bam1_t) :
    (evaluated input ++ [last_buf input]).Sublist (input ++ [bam_init1]) := by
  rcases List.eq_nil_or_concat input with h | ⟨pre, r, h⟩
  · subst h; exact List.Sublist.refl _
  · subst h
    have hpre : (evaluated pre).Sublist pre := List.filter_sublist _
    rw [List.concat_eq_append, evaluated_concat, last_buf_concat]
    by_cases hs : skipped r = true
    · simp only [hs, if_true]
      exact (hpre.append (List.Sublist.refl [r])).trans (List.sublist_append_left _ _)
    · simp only [hs, if_false]
      exact (hpre.append (List.Sublist.refl [r])).append (List.Sublist.refl _)

theorem written_of_not_opens (ms mq : Nat) (io : Transport) (hash : List Nat → Nat → Nat)
    (mws : Nat) (clip : Int) (threads : Int) (h : ¬ opens_ok io threads) :
    search_hts_alignments_with ms mq io hash mws clip threads = ⟨-1, []⟩ := by
  unfold search_hts_alignments_with
  by_cases h1 : threads > 1 ∧ io.hts_set_threads_in ≠ 0
  · rw [if_pos h1]
  · rw [if_neg h1]
    by_cases h2 : io.sam_hdr_read = false
    · rw [if_pos h2]
    · rw [if_neg h2]
      by_cases h3 : io.hts_set_threads_out ≠ 0
      · rw [if_pos h3]
      · rw [if_neg h3]
        by_cases h4 : io.sam_hdr_write ≠ 0
        · rw [if_pos h4]
        · exfalso
          apply h
          refine ⟨fun ht => ?_, by simpa using h2, by simpa using h3, by simpa using h4⟩
          by_contra hc
          exact h1 ⟨ht, hc⟩

/-! ## The classification of one record -/

theorem and_two_pow_eq_zero_iff (x n : Nat) : x &&& 2 ^ n = 0 ↔ x.testBit n = false := by
  constructor
  · intro h
    have := Nat.testBit_and x (2 ^ n) n
    rw [h, Nat.zero_testBit, Nat.testBit_two_pow_self, Bool.and_true] at this
    exact this.symm
  · intro h
    apply Nat.eq_of_testBit_eq
    intro i
    rw [Nat.testBit_and, Nat.zero_testBit, Nat.testBit_two_pow]
    by_cases hi : n = i
    · subst hi; simp [h]
    · simp [hi]

theorem complement_bit_two (flag : Nat) (hflag : flag < 65536) :
    (4294967295 - flag) &&& 2 ≠ 0 ↔ flag &&& 2 = 0 := by
  have h32 : flag < 2 ^ 32 := by omega
  have hsub : 4294967295 - flag = 2 ^ 32 - (flag + 1) := by omega
  have hbit := Nat.testBit_two_pow_sub_succ h32 1
  have e1 := and_two_pow_eq_zero_iff (4294967295 - flag) 1
  have e2 := and_two_pow_eq_zero_iff flag 1
  rw [show (2 : Nat) ^ 1 = 2 from rfl] at e1 e2
  rw [Ne, e1, e2, hsub, hbit]
  cases Nat.testBit flag 1 <;> simp

theorem discordant_or_supplementary_iff (flag : Nat) (hflag : flag < 65536) :
    discordant_or_supplementary flag = true ↔
      (flag &&& 1 ≠ 0 ∧ flag &&& 2 = 0) ∨ flag &&& 2048 ≠ 0 := by
  unfold discordant_or_supplementary
  rw [Bool.or_eq_true, Bool.and_eq_true, decide_eq_true_eq, decide_eq_true_eq,
    decide_eq_true_eq, complement_bit_two flag hflag]
  constructor
  · rintro (⟨h2, h1⟩ | h)
    · exact Or.inl ⟨h1, h2⟩
    · exact Or.inr h
  · rintro (⟨h1, h2⟩ | h)
    · exact Or.inl ⟨h2, h1⟩
    · exact Or.inr h

theorem clip_test_iff (clip : Int) (hclip : clip < 2147483648) (len : Nat) :
    (check_clips clip ≠ 0 ∧ len ≥ to_uint32 clip) ↔ (clip > 0 ∧ (len : Int) ≥ clip) := by
  unfold check_clips to_uint32
  by_cases hpos : clip > 0
  · rw [if_pos hpos]
    have hmod : clip % 4294967296 = clip := Int.emod_eq_of_lt (by omega) (by omega)
    rw [hmod]
    constructor
    · rintro ⟨_, h⟩
      refine ⟨hpos, ?_⟩
      omega
    · rintro ⟨_, h⟩
      refine ⟨by decide, ?_⟩
      omega
  · rw [if_neg hpos]
    constructor
    · rintro ⟨h, _⟩; exact absurd rfl h
    · rintro ⟨h, _⟩; exact absurd h hpos

theorem cigar_scan_iff (mws : Nat) (clip : Int) (hclip : clip < 2147483648)
    (cigar : List (Nat × Nat)) :
    cigar_scan mws clip cigar = true ↔
      (∃ c ∈ cigar, c.1 = BAM_CSOFT_CLIP ∧ clip > 0 ∧ (c.2 : Int) ≥ clip)
        ∨ (∃ c ∈ cigar, (c.1 = BAM_CINS ∨ c.1 = BAM_CDEL) ∧ c.2 ≥ mws) := by
  induction cigar with
  | nil => simp [cigar_scan]
  | cons c rest ih =>
    have hc := clip_test_iff clip hclip c.2
    unfold cigar_scan
    simp only [bam_cigar_op, bam_cigar_oplen, List.mem_cons, exists_eq_or_imp]
    by_cases h1 : check_clips clip ≠ 0 ∧ c.1 = BAM_CSOFT_CLIP ∧ c.2 ≥ to_uint32 clip
    · rw [if_pos h1]
      have := hc.mp ⟨h1.1, h1.2.2⟩
      simp only [true_iff]
      exact Or.inl (Or.inl ⟨h1.2.1, this.1, this.2⟩)
    · rw [if_neg h1]
      have h1s : ¬ (c.1 = BAM_CSOFT_CLIP ∧ clip > 0 ∧ (c.2 : Int) ≥ clip) := by
        rintro ⟨ha, hb, hd⟩
        have := hc.mpr ⟨hb, hd⟩
        exact h1 ⟨this.1, ha, this.2⟩
      by_cases h2 : (c.1 = BAM_CINS ∨ c.1 = BAM_CDEL) ∧ c.2 ≥ mws
      · rw [if_pos h2]
        simp only [true_iff]
        exact Or.inr (Or.inl h2)
      · rw [if_neg h2, ih]
        constructor
        · rintro (h | h)
          · exact Or.inl (Or.inr h)
          · exact Or.inr (Or.inr h)
        · rintro ((h | h) | (h | h))
          · exact absurd h h1s
          · exact Or.inl h
          · exact absurd h h2
          · exact Or.inr h

theorem marks_read_iff (mws : Nat) (clip : Int) (hclip : clip < 2147483648) (r : bam1_t)
    (hflag : r.flag < 65536) :
    marks_read mws clip r = true ↔ spec_evidence mws clip r := by
  unfold marks_read spec_evidence
  rw [Nat.mod_eq_of_lt hflag]
  have hd := discordant_or_supplementary_iff r.flag hflag
  have hc := cigar_scan_iff mws clip hclip r.cigar
  by_cases h1 : discordant_or_supplementary r.flag = true
  · rw [if_pos h1]
    have := hd.mp h1
    simp only [true_iff]
    rcases this with h | h
    · exact Or.inl h
    · exact Or.inr (Or.inl h)
  · rw [if_neg h1]
    have hn := fun h => h1 (hd.mpr h)
    by_cases h2 : bam_aux_get_SA r = true
    · rw [if_pos h2]
      simp only [true_iff]
      unfold bam_aux_get_SA at h2
      exact Or.inr (Or.inr (Or.inl (of_decide_eq_true h2)))
    · rw [if_neg h2, hc]
      have h2s : (83, 65) ∉ r.aux := by
        intro h; exact h2 (by unfold bam_aux_get_SA; exact decide_eq_true h)
      constructor
      · rintro (h | h)
        · exact Or.inr (Or.inr (Or.inr (Or.inl h)))
        · exact Or.inr (Or.inr (Or.inr (Or.inr h)))
      · rintro (h | h | h | h | h)
        · exact absurd (Or.inl h) hn
        · exact absurd (Or.inr h) hn
        · exact absurd h h2s
        · exact Or.inl h
        · exact Or.inr h

theorem skipped_iff (r : bam1_t) (hflag : r.flag < 65536) :
    skipped r = true ↔ spec_skipped r := by
  unfold skipped spec_skipped
  rw [Nat.mod_eq_of_lt hflag]
  simp only [Bool.or_eq_true, decide_eq_true_eq, or_assoc]

theorem classify_read_names (hash : List Nat → Nat → Nat) (mws : Nat) (clip : Int) (s : State)
    (back : Nat × bam1_ptr) (hback : s.scope.getLast? = some back) :
    (classify hash mws clip s).read_names =
      if skipped back.2.val then s.read_names
      else if hash back.2.val.qname 0 ∈ s.read_names then s.read_names
      else if marks_read mws clip back.2.val then insert (hash back.2.val.qname 0) s.read_names
      else s.read_names := by
  unfold classify
  rw [hback]
  dsimp only
  split_ifs <;> rfl

theorem classify_marks_iff (hash : List Nat → Nat → Nat) (mws : Nat) (clip : Int) (s : State)
    (back : Nat × bam1_ptr) (hback : s.scope.getLast? = some back)
    (hskip : skipped back.2.val = false) (hfresh : hash back.2.val.qname 0 ∉ s.read_names) :
    hash back.2.val.qname 0 ∈ (classify hash mws clip s).read_names
      ↔ marks_read mws clip back.2.val = true := by
  rw [classify_read_names hash mws clip s back hback, hskip, if_neg hfresh]
  simp only [Bool.false_eq_true, if_false]
  by_cases hm : marks_read mws clip back.2.val = true
  · rw [if_pos hm]
    exact ⟨fun _ => hm, fun _ => Finset.mem_insert_self _ _⟩
  · rw [if_neg hm]
    exact ⟨fun h => absurd h hfresh, fun h => absurd h hm⟩

theorem outcome_ext {a b : Outcome} (hr : a.ret = b.ret) (hw : a.written = b.written) :
    a = b := by
  cases a
  cases b
  simp only at hr hw
  rw [hr, hw]

theorem trailing_nil {hash : List Nat → Nat → Nat} {mws : Nat} {clip : Int}
    {input : List bam1_t}
    (h0 : ∀ e ∈ input, skipped e = false → marks_read mws clip e = true → hash e.qname 0 ≠ 0) :
    trailing hash mws clip input = [] := by
  unfold trailing
  rw [if_neg]
  intro hmem
  obtain ⟨e, he, hm, hf⟩ := mem_interest_set.mp hmem
  unfold evaluated at he
  have he2 := List.mem_filter.mp he
  exact h0 e he2.1 (by simpa using he2.2) hm hf

theorem ingest_read_names {ms : Nat} (hash : List Nat → Nat → Nat) (mws : Nat) (clip : Int)
    {w : Nat → Int} (mq : Nat) (hms : 0 < ms) (hw : ∀ n, 0 ≤ w n) (input : List bam1_t) :
    ∃ s, ingest ms mq w hash mws clip init_state input = Except.ok s
      ∧ s.read_names = interest_set hash mws clip (evaluated input)
      ∧ 1 ≤ s.scope.length ∧ s.scope.length ≤ ms + 1 := by
  obtain ⟨s, popped, window, hin, hev, hwin, hC⟩ := ingest_inv hash mws clip mq hms hw input
  refine ⟨s, hin, by rw [hC.names_eq, hev], ?_, ?_⟩
  · rw [hC.scope_eq]; simp
  · rw [hC.scope_eq]; simp [scope_entries_length]; omega

theorem mem_interest_set_evaluated {hash : List Nat → Nat → Nat} {mws : Nat} {clip : Int}
    {input : List bam1_t} {f : Nat} :
    f ∈ interest_set hash mws clip (evaluated input) ↔
      ∃ e ∈ input, skipped e = false ∧ hash e.qname 0 = f ∧ marks_read mws clip e = true := by
  rw [mem_interest_set]
  unfold evaluated
  constructor
  · rintro ⟨e, he, hm, hf⟩
    have he2 := List.mem_filter.mp he
    exact ⟨e, he2.1, by simpa using he2.2, hf, hm⟩
  · rintro ⟨e, he, hs, hf, hm⟩
    exact ⟨e, List.mem_filter.mpr ⟨he, by simp [hs]⟩, hm, hf⟩

theorem loop_body_eq (ms mq : Nat) (w : Nat → Int) (hash : List Nat → Nat → Nat) (mws : Nat)
    (clip : Int) (s : State) (r : bam1_t) :
    loop_body ms mq w hash mws clip s r =
      match flush_if_full mq w (resolve_overflow ms (read_into_back s r)) with
      | Except.error e => Except.error e
      | Except.ok s3 => Except.ok (classify hash mws clip s3) :=
  rfl

theorem core_scope_length {ms : Nat} {hash : List Nat → Nat → Nat} {mws : Nat} {clip : Int}
    {popped window : List bam1_t} {buf : bam1_t} {s : State}
    (h : Core ms hash mws clip popped window buf s) :
    s.scope.length = window.length + 1 := by
  rw [h.scope_eq]
  simp [scope_entries_length]

theorem scope_bounds {ms : Nat} (hash : List Nat → Nat → Nat) (mws : Nat) (clip : Int)
    {w : Nat → Int} (mq : Nat) (hms : 0 < ms) (hw : ∀ n, 0 ≤ w n) (pre : List bam1_t)
    (r : bam1_t) :
    ∃ s s3, ingest ms mq w hash mws clip init_state pre = Except.ok s
      ∧ flush_if_full mq w (resolve_overflow ms (read_into_back s r)) = Except.ok s3
      ∧ (1 ≤ s.scope.length ∧ s.scope.length ≤ ms + 1)
      ∧ (1 ≤ (read_into_back s r).scope.length ∧ (read_into_back s r).scope.length ≤ ms + 1)
      ∧ (1 ≤ (resolve_overflow ms (read_into_back s r)).scope.length
          ∧ (resolve_overflow ms (read_into_back s r)).scope.length ≤ ms)
      ∧ (1 ≤ s3.scope.length ∧ s3.scope.length ≤ ms)
      ∧ (1 ≤ (classify hash mws clip s3).scope.length
          ∧ (classify hash mws clip s3).scope.length ≤ ms + 1) := by
  obtain ⟨s, popped, window, hin, _, hwin, hC⟩ := ingest_inv hash mws clip mq hms hw pre
  have hC1 := core_read hC r
  obtain ⟨p1, w1, _, hw1, hC2⟩ := core_resolve hC1 hms hwin
  obtain ⟨s3, hfl, hC3⟩ := core_flush hC2 hw mq
  have l0 := core_scope_length hC
  have l1 := core_scope_length hC1
  have l2 := core_scope_length hC2
  have l3 := core_scope_length hC3
  refine ⟨s, s3, hin, hfl, ⟨by omega, by omega⟩, ⟨?_, ?_⟩, ⟨?_, ?_⟩, ⟨by omega, by omega⟩, ?_⟩
  · show 1 ≤ (read_into_back s r).scope.length
    unfold read_into_back; omega
  · show (read_into_back s r).scope.length ≤ ms + 1
    unfold read_into_back; omega
  · show 1 ≤ (resolve_overflow ms (read_into_back s r)).scope.length
    unfold resolve_overflow read_into_back; omega
  · show (resolve_overflow ms (read_into_back s r)).scope.length ≤ ms
    unfold resolve_overflow read_into_back; omega
  · by_cases hs : skipped r = true
    · rw [core_classify_skipped hC3 hs]
      omega
    · have hs2 : skipped r = false := by simpa using hs
      have l4 := core_scope_length (core_classify_evaluated hC3 hs2)
      rw [List.length_append, List.length_singleton] at l4
      omega

theorem classify_always_eq (hash : List Nat → Nat → Nat) (mws : Nat) (clip : Int) (s : State) :
    classify_always hash mws clip s = classify hash mws clip s := by
  unfold classify_always classify
  cases hb : s.scope.getLast? with
  | none => rfl
  | some back =>
    dsimp only
    by_cases hs : skipped back.2.val = true
    · rw [if_pos hs, if_pos hs]
    · rw [if_neg hs, if_neg hs]
      by_cases hmem : hash back.2.val.qname 0 ∈ s.read_names
      · rw [if_pos hmem, Finset.insert_eq_of_mem hmem]
        split_ifs <;> rfl
      · rw [if_neg hmem]

theorem loop_body_always_eq (ms mq : Nat) (w : Nat → Int) (hash : List Nat → Nat → Nat)
    (mws : Nat) (clip : Int) (s : State) (r : bam1_t) :
    loop_body_always ms mq w hash mws clip s r = loop_body ms mq w hash mws clip s r := by
  unfold loop_body_always loop_body
  simp only [classify_always_eq]

theorem ingest_always_eq (ms mq : Nat) (w : Nat → Int) (hash : List Nat → Nat → Nat)
    (mws : Nat) (clip : Int) (s : State) (input : List bam1_t) :
    ingest_always ms mq w hash mws clip s input = ingest ms mq w hash mws clip s input := by
  induction input generalizing s with
  | nil => rfl
  | cons r rs ih =>
    simp only [ingest_always, ingest, loop_body_always_eq]
    cases loop_body ms mq w hash mws clip s r with
    | error e => rfl
    | ok s1 => exact ih s1

theorem to_int_of_lt {n : Nat} (h : n < 2147483648) : to_int n = (n : Int) := by
  unfold to_int
  have hm : n % 4294967296 = n := Nat.mod_eq_of_lt (by omega)
  rw [hm, if_pos h]

theorem kept_records_of_all_marked {ms : Nat} (hash : List Nat → Nat → Nat) (mws : Nat)
    (clip : Int) (input : List bam1_t) (hms : 0 < ms)
    (hall : ∀ e ∈ evaluated input, marks_read mws clip e = true) :
    kept_records ms hash mws clip input
      = (scope_entries hash 0 (evaluated input)).map (fun it => it.2) := by
  unfold kept_records
  congr 1
  rw [List.filter_eq_self]
  intro it hit
  obtain ⟨_, _, hget, hh⟩ := mem_scope_entries hit
  rw [Nat.sub_zero] at hget
  unfold kept
  rw [decide_eq_true_eq, mem_interest_set]
  refine ⟨it.2.val, mem_take_iff_index.mpr ⟨it.2.addr, by omega, hget⟩, ?_, hh.symm⟩
  exact hall _ (List.mem_iff_getElem?.mpr ⟨_, hget⟩)

theorem all_marked_result {ms : Nat} (mq : Nat) {io : Transport} (hash : List Nat → Nat → Nat)
    (mws : Nat) (clip : Int) {threads : Int} (hms : 0 < ms) (hopen : opens_ok io threads)
    (hw : writes_ok io)
    (hall : ∀ e ∈ io.records,
      skipped e = false ∧ marks_read mws clip e = true ∧ hash e.qname 0 ≠ 0) :
    (search_hts_alignments_with ms mq io hash mws clip threads).written.length
        = io.records.length
      ∧ (search_hts_alignments_with ms mq io hash mws clip threads).ret
        = if io.hts_close_in ≠ 0 ∨ io.hts_close_out < 0 then -1
          else to_int io.records.length := by
  have hev : evaluated io.records = io.records := by
    unfold evaluated
    rw [List.filter_eq_self]
    intro e he
    simp [(hall e he).1]
  have hk : (kept_records ms hash mws clip io.records).length = io.records.length := by
    rw [kept_records_of_all_marked hash mws clip io.records hms, List.length_map,
      scope_entries_length, hev]
    intro e he
    rw [hev] at he
    exact (hall e he).2.1
  have ht : trailing hash mws clip io.records = [] :=
    trailing_nil (fun e he _ _ => (hall e he).2.2)
  obtain ⟨hwr, hret⟩ := search_result mq hash mws clip hms hopen hw
  rw [ht, List.append_nil] at hwr hret
  rw [hwr, hret, hk]
  exact ⟨rfl, rfl⟩

theorem return_value_in_range {ms : Nat} (mq : Nat) {io : Transport}
    (hash : List Nat → Nat → Nat) (mws : Nat) (clip : Int) {threads : Int} (hms : 0 < ms)
    (hopen : opens_ok io threads) (hw : writes_ok io)
    (hc1 : io.hts_close_in = 0) (hc2 : 0 ≤ io.hts_close_out)
    (hsmall : (search_hts_alignments_with ms mq io hash mws clip threads).written.length
      < 2147483648) :
    (search_hts_alignments_with ms mq io hash mws clip threads).ret
      = ((search_hts_alignments_with ms mq io hash mws clip threads).written.length : Int) := by
  obtain ⟨hwr, hret⟩ := search_result mq hash mws clip hms hopen hw
  have hcl : ¬ (io.hts_close_in ≠ 0 ∨ io.hts_close_out < 0) := by
    rintro (h | h)
    · exact h hc1
    · omega
  rw [hwr] at hsmall
  rw [hret, if_neg hcl, hwr, to_int_of_lt hsmall]

/-! ## Runs with a failing write -/

theorem write_records_agree {w : Nat → Int} {k0 : Nat} (hfirst : ∀ i, i < k0 → 0 ≤ w i)
    (q : List bam1_ptr) (s : State) (hle : s.out.length + q.length ≤ k0) :
    write_records w q s
      = Except.ok { s with total := s.total + q.length, out := s.out ++ q } := by
  induction q generalizing s with
  | nil => simp [write_records]
  | cons v vs ih =>
    rw [List.length_cons] at hle
    have hv : ¬ w s.out.length < 0 := not_lt.mpr (hfirst _ (by omega))
    have hle2 : ({ s with total := s.total + 1, out := s.out ++ [v] } : State).out.length
        + vs.length ≤ k0 := by
      show (s.out ++ [v]).length + vs.length ≤ k0
      rw [List.length_append, List.length_singleton]; omega
    simp only [write_records, if_neg hv, ih _ hle2, List.length_cons, List.append_assoc,
      List.singleton_append]
    congr 2
    omega

theorem write_records_fail {w : Nat → Int} {k0 : Nat} (hfirst : ∀ i, i < k0 → 0 ≤ w i)
    (hfail : w k0 < 0) (q : List bam1_ptr) (s : State) (hle : s.out.length ≤ k0)
    (hlt : k0 < s.out.length + q.length) :
    ∃ e, write_records w q s = Except.error e ∧ e.out = (s.out ++ q).take k0 := by
  induction q generalizing s with
  | nil => simp at hlt; omega
  | cons v vs ih =>
    rw [List.length_cons] at hlt
    by_cases heq : s.out.length = k0
    · refine ⟨s, ?_, ?_⟩
      · have hv : w s.out.length < 0 := by rw [heq]; exact hfail
        simp only [write_records, if_pos hv]
      · rw [List.take_append_of_le_length (Nat.le_of_eq heq.symm),
          List.take_of_length_le (Nat.le_of_eq heq)]
    · have hv : ¬ w s.out.length < 0 := not_lt.mpr (hfirst _ (by omega))
      have hlen : ({ s with total := s.total + 1, out := s.out ++ [v] } : State).out.length
          = s.out.length + 1 := by
        show (s.out ++ [v]).length = _
        rw [List.length_append, List.length_singleton]
      obtain ⟨e, he, hout⟩ := ih { s with total := s.total + 1, out := s.out ++ [v] }
        (by rw [hlen]; omega) (by rw [hlen]; omega)
      refine ⟨e, ?_, ?_⟩
      · simp only [write_records, if_neg hv, he]
      · rw [hout]
        show ((s.out ++ [v]) ++ vs).take k0 = _
        rw [List.append_assoc, List.singleton_append]

theorem classify_out_queue (hash : List Nat → Nat → Nat) (mws : Nat) (clip : Int) (s : State) :
    (classify hash mws clip s).out = s.out
      ∧ (classify hash mws clip s).write_queue = s.write_queue := by
  unfold classify
  cases s.scope.getLast? with
  | none => exact ⟨rfl, rfl⟩
  | some back =>
    dsimp only
    split_ifs <;> exact ⟨rfl, rfl⟩

theorem resolve_overflow_out_queue (ms : Nat) (s : State) (r : bam1_t) :
    (resolve_overflow ms (read_into_back s r)).out = s.out
      ∧ ∃ extra, (resolve_overflow ms (read_into_back s r)).write_queue
          = s.write_queue ++ extra := by
  unfold resolve_overflow
  by_cases hgt : (read_into_back s r).scope.length > ms
  · rw [if_pos hgt]
    unfold resolve_front
    cases hsc : (read_into_back s r).scope with
    | nil => exact ⟨rfl, [], by simp [read_into_back]⟩
    | cons x xs =>
      dsimp only
      by_cases hm : x.1 ∈ (read_into_back s r).read_names
      · rw [if_pos hm]
        exact ⟨rfl, [x.2], rfl⟩
      · rw [if_neg hm]
        exact ⟨rfl, [], by simp [read_into_back]⟩
  · rw [if_neg hgt]
    exact ⟨rfl, [], by simp [read_into_back]⟩

theorem loop_body_sim {w wok : Nat → Int} {k0 : Nat} (hfirst : ∀ i, i < k0 → 0 ≤ w i)
    (hfail : w k0 < 0) (hok : ∀ n, 0 ≤ wok n) (ms mq : Nat) (hash : List Nat → Nat → Nat)
    (mws : Nat) (clip : Int) (s : State) (r : bam1_t) (hle : s.out.length ≤ k0) :
    ∃ s1 extra, loop_body ms mq wok hash mws clip s r = Except.ok s1
      ∧ s1.out ++ s1.write_queue = s.out ++ s.write_queue ++ extra
      ∧ ((loop_body ms mq w hash mws clip s r = Except.ok s1 ∧ s1.out.length ≤ k0)
        ∨ ∃ e, loop_body ms mq w hash mws clip s r = Except.error e
            ∧ e.out = (s1.out ++ s1.write_queue).take k0
            ∧ k0 < (s1.out ++ s1.write_queue).length) := by
  obtain ⟨hout, extra, hq⟩ := resolve_overflow_out_queue ms s r
  rw [loop_body_eq, loop_body_eq]
  generalize resolve_overflow ms (read_into_back s r) = s2 at hout hq
  unfold flush_if_full
  by_cases hfull : s2.write_queue.length > mq
  · rw [if_pos hfull, if_pos hfull, write_records_ok hok]
    have hcl := classify_out_queue hash mws clip
      { s2 with total := s2.total + s2.write_queue.length, out := s2.out ++ s2.write_queue,
                write_queue := [] }
    refine ⟨_, extra, rfl, ?_, ?_⟩
    · rw [hcl.1, hcl.2]
      show s2.out ++ s2.write_queue ++ [] = _
      rw [List.append_nil, hout, hq, List.append_assoc]
    · by_cases hfit : s2.out.length + s2.write_queue.length ≤ k0
      · left
        rw [write_records_agree hfirst _ _ hfit]
        refine ⟨rfl, ?_⟩
        rw [hcl.1]
        show (s2.out ++ s2.write_queue).length ≤ k0
        rw [List.length_append]
        exact hfit
      · right
        obtain ⟨e, he, heo⟩ := write_records_fail hfirst hfail s2.write_queue s2
          (by rw [hout]; exact hle) (by omega)
        refine ⟨e, by rw [he], ?_, ?_⟩
        · rw [hcl.1, hcl.2, heo]
          show _ = List.take k0 (s2.out ++ s2.write_queue ++ [])
          rw [List.append_nil]
        · rw [hcl.1, hcl.2]
          show k0 < (s2.out ++ s2.write_queue ++ []).length
          rw [List.append_nil, List.length_append]
          omega
  · rw [if_neg hfull, if_neg hfull]
    have hcl := classify_out_queue hash mws clip s2
    refine ⟨_, extra, rfl, ?_, Or.inl ⟨rfl, ?_⟩⟩
    · rw [hcl.1, hcl.2, hout, hq, List.append_assoc]
    · rw [hcl.1, hout]
      exact hle

theorem ingest_ok_emitted {wok : Nat → Int} (hok : ∀ n, 0 ≤ wok n) (ms mq : Nat)
    (hash : List Nat → Nat → Nat) (mws : Nat) (clip : Int) (s : State) (input : List bam1_t) :
    ∃ s1 extra, ingest ms mq wok hash mws clip s input = Except.ok s1
      ∧ s1.out ++ s1.write_queue = s.out ++ s.write_queue ++ extra := by
  induction input generalizing s with
  | nil => exact ⟨s, [], rfl, by rw [List.append_nil]⟩
  | cons r rs ih =>
    obtain ⟨hout, extra, hq⟩ := resolve_overflow_out_queue ms s r
    have hstep : ∃ t ex, loop_body ms mq wok hash mws clip s r = Except.ok t
        ∧ t.out ++ t.write_queue = s.out ++ s.write_queue ++ ex := by
      rw [loop_body_eq]
      generalize resolve_overflow ms (read_into_back s r) = s2 at hout hq
      unfold flush_if_full
      by_cases hfull : s2.write_queue.length > mq
      · rw [if_pos hfull, write_records_ok hok]
        have hcl := classify_out_queue hash mws clip
          { s2 with total := s2.total + s2.write_queue.length,
                    out := s2.out ++ s2.write_queue, write_queue := [] }
        refine ⟨_, extra, rfl, ?_⟩
        rw [hcl.1, hcl.2]
        show s2.out ++ s2.write_queue ++ [] = _
        rw [List.append_nil, hout, hq, List.append_assoc]
      · rw [if_neg hfull]
        have hcl := classify_out_queue hash mws clip s2
        refine ⟨_, extra, rfl, ?_⟩
        rw [hcl.1, hcl.2, hout, hq, List.append_assoc]
    obtain ⟨t, ex, ht, hte⟩ := hstep
    obtain ⟨s1, ex2, hs1, hs1e⟩ := ih t
    refine ⟨s1, ex ++ ex2, ?_, ?_⟩
    · simp only [ingest, ht, hs1]
    · rw [hs1e, hte]
      simp only [List.append_assoc]

theorem ingest_sim {w wok : Nat → Int} {k0 : Nat} (hfirst : ∀ i, i < k0 → 0 ≤ w i)
    (hfail : w k0 < 0) (hok : ∀ n, 0 ≤ wok n) (ms mq : Nat) (hash : List Nat → Nat → Nat)
    (mws : Nat) (clip : Int) (s : State) (input : List bam1_t) (hle : s.out.length ≤ k0) :
    ∃ s1, ingest ms mq wok hash mws clip s input = Except.ok s1
      ∧ ((ingest ms mq w hash mws clip s input = Except.ok s1 ∧ s1.out.length ≤ k0)
        ∨ ∃ e, ingest ms mq w hash mws clip s input = Except.error e
            ∧ e.out = (s1.out ++ s1.write_queue).take k0
            ∧ k0 < (s1.out ++ s1.write_queue).length) := by
  induction input generalizing s with
  | nil => exact ⟨s, rfl, Or.inl ⟨rfl, hle⟩⟩
  | cons r rs ih =>
    obtain ⟨t, _, ht, _, hcase⟩ :=
      loop_body_sim hfirst hfail hok ms mq hash mws clip s r hle
    rcases hcase with ⟨hwt, htle⟩ | ⟨e, hwe, heo, hlt⟩
    · obtain ⟨s1, hs1, hc⟩ := ih t htle
      refine ⟨s1, by simp only [ingest, ht, hs1], ?_⟩
      rcases hc with ⟨h1, h2⟩ | ⟨e, h1, h2, h3⟩
      · exact Or.inl ⟨by simp only [ingest, hwt, h1], h2⟩
      · exact Or.inr ⟨e, by simp only [ingest, hwt, h1], h2, h3⟩
    · obtain ⟨s1, ex, hs1, hs1e⟩ := ingest_ok_emitted hok ms mq hash mws clip t rs
      refine ⟨s1, by simp only [ingest, ht, hs1], Or.inr ⟨e, by simp only [ingest, hwe], ?_, ?_⟩⟩
      · rw [heo, hs1e, List.take_append_of_le_length (Nat.le_of_lt hlt)]
      · rw [hs1e, List.length_append]
        omega

theorem drain_out_queue (s : State) :
    (drain s).out = s.out ∧ ∃ extra, (drain s).write_queue = s.write_queue ++ extra := by
  unfold drain
  rw [drain_eq _ s rfl]
  exact ⟨rfl, _, rfl⟩

theorem search_with_failure {ms : Nat} (mq : Nat) {io : Transport}
    (hash : List Nat → Nat → Nat) (mws : Nat) (clip : Int) {threads : Int} {k0 : Nat}
    (hms : 0 < ms) (hopen : opens_ok io threads)
    (hfirst : ∀ i, i < k0 → 0 ≤ io.sam_write1 i) (hfail : io.sam_write1 k0 < 0)
    (hreach : k0 < (kept_records ms hash mws clip io.records
      ++ trailing hash mws clip io.records).length) :
    search_hts_alignments_with ms mq io hash mws clip threads
      = ⟨-1, (kept_records ms hash mws clip io.records
          ++ trailing hash mws clip io.records).take k0⟩ := by
  have hok : ∀ n : Nat, (0 : Int) ≤ (fun _ : Nat => (0 : Int)) n := fun _ => Int.le_refl 0
  obtain ⟨h1, h2, h3, h4⟩ := hopen
  obtain ⟨s, popped, window, hin, hev, hwin, hC⟩ :=
    ingest_inv hash mws clip mq hms hok io.records
  obtain ⟨hd1, hd2, _⟩ := drain_core hev hwin hC
  obtain ⟨s1, hs1, hcase⟩ := ingest_sim hfirst hfail hok ms mq hash mws clip init_state
    io.records (Nat.zero_le _)
  have hs : s1 = s := by
    rw [hin] at hs1
    exact (Except.ok.inj hs1).symm
  subst hs
  have hn1 : ¬ (threads > 1 ∧ io.hts_set_threads_in ≠ 0) := fun hh => hh.2 (h1 hh.1)
  unfold search_hts_alignments_with
  rw [if_neg hn1]
  simp only [h2, h3, h4, Bool.true_eq_false, if_false, ne_eq, not_true_eq_false]
  rcases hcase with ⟨hwin2, hle⟩ | ⟨e, hwe, heo, hlt⟩
  · obtain ⟨e, he, heo⟩ := write_records_fail hfirst hfail (drain s1).write_queue (drain s1)
      (by rw [hd2]; exact hle) (by rw [← List.length_append, hd1]; exact hreach)
    simp only [hwin2, he]
    rw [heo, hd1]
  · obtain ⟨_, extra, hq⟩ := drain_out_queue s1
    simp only [hwe]
    rw [heo, ← hd1, hd2, hq, ← List.append_assoc,
      List.take_append_of_le_length (Nat.le_of_lt hlt)]

theorem sentinel_on_checked_failure (ms mq : Nat) (io : Transport)
    (hash : List Nat → Nat → Nat) (mws : Nat) (clip : Int) (threads : Int) :
    (¬ opens_ok io threads →
        search_hts_alignments_with ms mq io hash mws clip threads = ⟨-1, []⟩)
      ∧ (io.hts_close_in ≠ 0 ∨ io.hts_close_out < 0 →
        (search_hts_alignments_with ms mq io hash mws clip threads).ret = -1) := by
  refine ⟨written_of_not_opens ms mq io hash mws clip threads, ?_⟩
  intro hclose
  unfold search_hts_alignments_with
  by_cases h1 : threads > 1 ∧ io.hts_set_threads_in ≠ 0
  · rw [if_pos h1]
  · rw [if_neg h1]
    by_cases h2 : io.sam_hdr_read = false
    · rw [if_pos h2]
    · rw [if_neg h2]
      by_cases h3 : io.hts_set_threads_out ≠ 0
      · rw [if_pos h3]
      · rw [if_neg h3]
        by_cases h4 : io.sam_hdr_write ≠ 0
        · rw [if_pos h4]
        · rw [if_neg h4]
          cases ingest ms mq io.sam_write1 hash mws clip init_state io.records with
          | error e => rfl
          | ok s =>
            dsimp only
            cases write_records io.sam_write1 (drain s).write_queue (drain s) with
            | error e => rfl
            | ok s1 =>
              dsimp only
              by_cases hc1 : io.hts_close_in ≠ 0
              · rw [if_pos hc1]
              · rw [if_neg hc1]
                have hc2 : io.hts_close_out < 0 := by
                  rcases hclose with h | h
                  · exact absurd h hc1
                  · exact h
                rw [if_pos hc2]

theorem step_resolves_first {w : Nat → Int} (hw : ∀ n, 0 ≤ w n) (ms mq : Nat)
    (hash : List Nat → Nat → Nat) (mws : Nat) (clip : Int) (s : State) (r : bam1_t)
    (front : Nat × bam1_ptr) (rest : List (Nat × bam1_ptr)) (hms : 0 < ms)
    (hsc : s.scope = front :: rest) (hlen : s.scope.length > ms) :
    ∃ s1, loop_body ms mq w hash mws clip s r = Except.ok s1
      ∧ s1.out ++ s1.write_queue
          = s.out ++ s.write_queue ++ (if front.1 ∈ s.read_names then [front.2] else [])
      ∧ (skipped r = false → marks_read mws clip r = true →
          hash r.qname 0 ∈ s1.read_names) := by
  have hrest : rest ≠ [] := by
    intro h
    rw [hsc, h] at hlen
    simp at hlen
    omega
  obtain ⟨xs, b, hxb⟩ : ∃ xs b, rest = xs ++ [b] := by
    rcases List.eq_nil_or_concat rest with h | ⟨xs, b, h⟩
    · exact absurd h hrest
    · exact ⟨xs, b, by rw [h, List.concat_eq_append]⟩
  have hread : (read_into_back s r).scope = front :: (xs ++ [(b.1, ⟨b.2.addr, r⟩)]) := by
    unfold read_into_back
    show modify_back _ s.scope = _
    rw [hsc, hxb, ← List.cons_append, modify_back_concat, List.cons_append]
  have hgt : (read_into_back s r).scope.length > ms := by
    rw [hread]
    rw [hsc, hxb] at hlen
    simpa using hlen
  have hres : resolve_overflow ms (read_into_back s r) =
      (if front.1 ∈ s.read_names then
        { s with write_queue := s.write_queue ++ [front.2],
                 scope := xs ++ [(b.1, ⟨b.2.addr, r⟩)] }
      else { s with scope := xs ++ [(b.1, ⟨b.2.addr, r⟩)] }) := by
    unfold resolve_overflow
    rw [if_pos hgt]
    unfold resolve_front
    rw [hread]
    rfl
  have hscope2 : (resolve_overflow ms (read_into_back s r)).scope
      = xs ++ [(b.1, ⟨b.2.addr, r⟩)] := by
    rw [hres]; split_ifs <;> rfl
  have hnames2 : (resolve_overflow ms (read_into_back s r)).read_names = s.read_names := by
    rw [hres]; split_ifs <;> rfl
  have hemit2 : (resolve_overflow ms (read_into_back s r)).out
        ++ (resolve_overflow ms (read_into_back s r)).write_queue
      = s.out ++ s.write_queue ++ (if front.1 ∈ s.read_names then [front.2] else []) := by
    rw [hres]
    split_ifs
    · show s.out ++ (s.write_queue ++ [front.2]) = _
      rw [List.append_assoc]
    · show s.out ++ s.write_queue = _
      rw [List.append_nil]
  rw [loop_body_eq]
  generalize resolve_overflow ms (read_into_back s r) = s2 at hscope2 hnames2 hemit2
  have hflush : ∃ s3, flush_if_full mq w s2 = Except.ok s3
      ∧ s3.out ++ s3.write_queue = s2.out ++ s2.write_queue
      ∧ s3.scope = s2.scope ∧ s3.read_names = s2.read_names := by
    unfold flush_if_full
    by_cases hfull : s2.write_queue.length > mq
    · rw [if_pos hfull, write_records_ok hw]
      exact ⟨_, rfl, by simp, rfl, rfl⟩
    · rw [if_neg hfull]
      exact ⟨s2, rfl, rfl, rfl, rfl⟩
  obtain ⟨s3, hfl, he3, hsc3, hn3⟩ := hflush
  rw [hfl]
  have hcl := classify_out_queue hash mws clip s3
  refine ⟨_, rfl, by rw [hcl.1, hcl.2, he3, hemit2], ?_⟩
  intro hsk hmk
  have hback : s3.scope.getLast? = some (b.1, ⟨b.2.addr, r⟩) := by
    rw [hsc3, hscope2, getLast?_concat_eq]
  rw [classify_read_names hash mws clip s3 _ hback]
  simp only [hsk, hmk, Bool.false_eq_true, if_false, if_true]
  split_ifs with hin
  · exact hin
  · exact Finset.mem_insert_self _ _

theorem far_mate_stream_mem {r : bam1_t} (hr : r ∈ far_mate_stream) :
    r = rec_A1 ∨ r = rec_B ∨ r = rec_A2 := by
  unfold far_mate_stream at hr
  rw [List.mem_cons, List.mem_append, List.mem_singleton] at hr
  rcases hr with h | h | h
  · exact Or.inl h
  · exact Or.inr (Or.inl (List.eq_of_mem_replicate h))
  · exact Or.inr (Or.inr h)

theorem far_mate_stream_evaluated : evaluated far_mate_stream = far_mate_stream := by
  unfold evaluated
  rw [List.filter_eq_self]
  intro r hr
  rcases far_mate_stream_mem hr with h | h | h <;> (rw [h]; decide)

theorem far_mate_stream_last : far_mate_stream[100000]? = some rec_A2 := by
  unfold far_mate_stream
  rw [show (100000 : Nat) = 99999 + 1 from rfl, List.getElem?_cons_succ,
    List.getElem?_append_right (Nat.le_of_eq (List.length_replicate _ _)),
    List.length_replicate, Nat.sub_self, List.getElem?_cons_zero]

theorem far_mate_stream_take :
    far_mate_stream.take 100000 = rec_A1 :: List.replicate 99999 rec_B := by
  unfold far_mate_stream
  rw [show (100000 : Nat) = 99999 + 1 from rfl, List.take_succ_cons,
    List.take_left' (List.length_replicate _ _)]

/-! ## Claims -/

/-- C1 (name coherence): in a run without transport failure, let `R1` and `R2`
be the evaluated records number `a` and `b` (`a < b`, counted among the
evaluated records), with the same name and fewer than `max_scope` evaluated
records apart.  If one of them satisfies the interest predicate, both are
written: the record objects `a` and `b`, holding `R1` and `R2`, are in the
output. -/
theorem name_coherence (io : Transport) (hash : List Nat → Nat → Nat) (mws : Nat) (clip : Int)
    (threads : Int) (a b : Nat) (R1 R2 : bam1_t)
    (hopen : opens_ok io threads) (hw : writes_ok io)
    (h1 : (evaluated io.records)[a]? = some R1) (h2 : (evaluated io.records)[b]? = some R2)
    (hab : a < b) (hspan : b - a < max_scope) (hname : R1.qname = R2.qname)
    (hint : marks_read mws clip R1 = true ∨ marks_read mws clip R2 = true) :
    (⟨a, R1⟩ : bam1_ptr) ∈ (search_hts_alignments io hash mws clip threads).written
      ∧ (⟨b, R2⟩ : bam1_ptr) ∈ (search_hts_alignments io hash mws clip threads).written := by
  unfold search_hts_alignments
  rw [(search_result max_write_queue hash mws clip max_scope_pos hopen hw).1]
  rcases hint with hint | hint
  · constructor
    · exact List.mem_append_left _
        (mem_kept_records.mpr
          ⟨h1, a, R1, by have := max_scope_pos; show a < a + max_scope; omega, h1, hint, rfl⟩)
    · exact List.mem_append_left _
        (mem_kept_records.mpr
          ⟨h2, a, R1, by show a < b + max_scope; omega, h1, hint, by simp only [hname]⟩)
  · constructor
    · exact List.mem_append_left _
        (mem_kept_records.mpr
          ⟨h1, b, R2, by show b < a + max_scope; omega, h2, hint, by simp only [hname]⟩)
    · exact List.mem_append_left _
        (mem_kept_records.mpr
          ⟨h2, b, R2, by have := max_scope_pos; show b < b + max_scope; omega, h2, hint, rfl⟩)

/-- Witness for C1: the unremarkable "A" record followed by its soft-clipped
mate. -/
theorem name_coherence_witness :
    (evaluated (quiet_transport [rec_A1, rec_A2]).records)[0]? = some rec_A1
      ∧ (evaluated (quiet_transport [rec_A1, rec_A2]).records)[1]? = some rec_A2
      ∧ marks_read 10 20 rec_A2 = true
      ∧ (⟨0, rec_A1⟩ : bam1_ptr)
          ∈ (search_hts_alignments (quiet_transport [rec_A1, rec_A2]) sum_hash 10 20 1).written
      ∧ (⟨1, rec_A2⟩ : bam1_ptr)
          ∈ (search_hts_alignments (quiet_transport [rec_A1, rec_A2]) sum_hash 10 20 1).written :=
  ⟨by decide, by decide, by decide,
    name_coherence (quiet_transport [rec_A1, rec_A2]) sum_hash 10 20 1 0 1 rec_A1 rec_A2
      (quiet_opens_ok _ _) (quiet_writes_ok _) (by decide) (by decide) (by decide)
      (by unfold max_scope; decide) (by decide) (Or.inr (by decide))⟩

/-- C2 (order preservation): in a run without write failure the record objects
are written in the order they were allocated, which is the order their records
were read; every written object holds the evaluated record of its number (or
is the placeholder at the back of the scope); and the written records form a
subsequence of the input followed by a fresh record object.  This holds
whether a record was resolved on overflow or in the final drain and whenever
the write queue was flushed. -/
theorem order_preserved (io : Transport) (hash : List Nat → Nat → Nat) (mws : Nat) (clip : Int)
    (threads : Int) (hw : writes_ok io) :
    (((search_hts_alignments io hash mws clip threads).written.map (fun p => p.addr)).Pairwise
        (fun x y => x < y))
      ∧ (∀ p ∈ (search_hts_alignments io hash mws clip threads).written,
          (evaluated io.records)[p.addr]? = some p.val
            ∨ (p.addr = (evaluated io.records).length ∧ p.val = last_buf io.records))
      ∧ ((search_hts_alignments io hash mws clip threads).written.map (fun p => p.val)).Sublist
          (io.records ++ [bam_init1]) := by
  unfold search_hts_alignments
  by_cases hopen : opens_ok io threads
  · rw [(search_result max_write_queue hash mws clip max_scope_pos hopen hw).1]
    refine ⟨?_, ?_, ?_⟩
    · rw [List.map_append, List.pairwise_append]
      refine ⟨kept_records_pairwise _ _ _ _ _, ?_, ?_⟩
      · unfold trailing
        split_ifs
        · exact List.pairwise_singleton _ _
        · exact List.Pairwise.nil
      · intro x hx y hy
        rw [List.mem_map] at hx hy
        obtain ⟨p, hp, rfl⟩ := hx
        obtain ⟨q, hq, rfl⟩ := hy
        have h1 := (mem_kept_records.mp hp).1
        have h2 := (mem_trailing hq).1
        rw [h2]
        by_contra hge
        rw [List.getElem?_eq_none (Nat.le_of_not_lt hge)] at h1
        cases h1
    · intro p hp
      rcases List.mem_append.mp hp with hp | hp
      · exact Or.inl (mem_kept_records.mp hp).1
      · exact Or.inr ⟨(mem_trailing hp).1, (mem_trailing hp).2.1⟩
    · rw [List.map_append]
      have hk := kept_records_sublist max_scope hash mws clip io.records
      unfold trailing
      split_ifs
      · exact (hk.append (List.Sublist.refl _)).trans (evaluated_last_buf_sublist io.records)
      · rw [List.map_nil, List.append_nil]
        exact (hk.trans (List.filter_sublist _)).trans (List.sublist_append_left _ _)
  · rw [written_of_not_opens _ _ _ _ _ _ _ hopen]
    refine ⟨List.Pairwise.nil, ?_, List.nil_sublist _⟩
    intro p hp
    cases hp

/-- Witness for C2: the three-record stream "A", "A", "B". -/
theorem order_preserved_witness :
    writes_ok (quiet_transport [rec_A1, rec_A2, rec_B])
      ∧ ((search_hts_alignments (quiet_transport [rec_A1, rec_A2, rec_B]) sum_hash 10 20
            1).written.map (fun p => p.val)).Sublist
          ((quiet_transport [rec_A1, rec_A2, rec_B]).records ++ [bam_init1]) :=
  ⟨quiet_writes_ok _,
    (order_preserved (quiet_transport [rec_A1, rec_A2, rec_B]) sum_hash 10 20 1
      (quiet_writes_ok _)).2.2⟩

/-- C3 (code evaluated at the failing input): when the fingerprint of the
discordant read "A" is 0, the run over the single record "A" writes two
records, the record read and the placeholder object that nothing was read
into, and returns 2 for an input of one record. -/
theorem placeholder_written_on_hash_zero :
    search_hts_alignments (quiet_transport [rec_D]) hash_A_zero 10 20 1
      = ⟨2, [⟨0, rec_D⟩, ⟨1, bam_init1⟩]⟩ := by
  decide

/-- C4 (counterexample): the unmapped record "A" is skipped, the next record
has the same name and satisfies the interest predicate, and the skipped record
is not among the written records. -/
theorem skipped_record_dropped :
    skipped rec_S = true ∧ rec_S.qname = rec_D.qname ∧ marks_read 10 20 rec_D = true
      ∧ (search_hts_alignments (quiet_transport [rec_S, rec_D]) sum_hash 10 20 1).written
          = [⟨0, rec_D⟩]
      ∧ rec_S ∉ (search_hts_alignments (quiet_transport [rec_S, rec_D]) sum_hash 10 20
          1).written.map (fun p => p.val) := by
  decide

/-- C4 (amended): a record excluded by the skip rule gets no fingerprint and no
scope entry (the state is left as it was, so the next read reuses its record
object), and in a run without write failure in which no evaluated record
satisfying the interest predicate has fingerprint 0, no skipped record is
written, whatever same-named records satisfy the predicate. -/
theorem skipped_never_written (io : Transport) (hash : List Nat → Nat → Nat) (mws : Nat)
    (clip : Int) (threads : Int) (hw : writes_ok io)
    (h0 : ∀ e ∈ io.records, skipped e = false → marks_read mws clip e = true →
      hash e.qname 0 ≠ 0) :
    (∀ (s : State) (back : Nat × bam1_ptr), s.scope.getLast? = some back →
        skipped back.2.val = true → classify hash mws clip s = s)
      ∧ ∀ p ∈ (search_hts_alignments io hash mws clip threads).written,
          skipped p.val = false := by
  constructor
  · intro s back hback hs
    unfold classify
    rw [hback]
    simp [hs]
  · unfold search_hts_alignments
    by_cases hopen : opens_ok io threads
    · rw [(search_result max_write_queue hash mws clip max_scope_pos hopen hw).1]
      intro p hp
      rcases List.mem_append.mp hp with hp | hp
      · have hget := (mem_kept_records.mp hp).1
        have hmem : p.val ∈ evaluated io.records := List.mem_iff_getElem?.mpr ⟨_, hget⟩
        unfold evaluated at hmem
        simpa using (List.mem_filter.mp hmem).2
      · exfalso
        obtain ⟨e, he, hm, hf⟩ := mem_interest_set.mp (mem_trailing hp).2.2
        unfold evaluated at he
        have he2 := List.mem_filter.mp he
        exact h0 e he2.1 (by simpa using he2.2) hm hf
    · rw [written_of_not_opens _ _ _ _ _ _ _ hopen]
      intro p hp
      cases hp

/-- Witness for C4 (amended): the skipped record "A" followed by the
discordant record "A". -/
theorem skipped_never_written_witness :
    writes_ok (quiet_transport [rec_S, rec_D])
      ∧ (∀ e ∈ (quiet_transport [rec_S, rec_D]).records, skipped e = false →
          marks_read 10 20 e = true → sum_hash e.qname 0 ≠ 0)
      ∧ ∀ p ∈ (search_hts_alignments (quiet_transport [rec_S, rec_D]) sum_hash 10 20 1).written,
          skipped p.val = false :=
  ⟨quiet_writes_ok _, by decide,
    (skipped_never_written (quiet_transport [rec_S, rec_D]) sum_hash 10 20 1
      (quiet_writes_ok _) (by decide)).2⟩

/-- C5 (interest predicate): classifying the record `r` at the back of the
scope against the interest set `S` yields `S ∪ {fingerprint r}` when `r` is not
skipped and shows one of the five kinds of evidence, and `S` in every other
case; when the fingerprint is not yet in `S`, the set becomes
`S ∪ {fingerprint r}` exactly in that case. -/
theorem interest_predicate (hash : List Nat → Nat → Nat) (mws : Nat) (clip : Int) (s : State)
    (back : Nat × bam1_ptr) (hback : s.scope.getLast? = some back)
    (hflag : back.2.val.flag < 65536) (hclip : clip < 2147483648) :
    (classify hash mws clip s).read_names =
        (if ¬ spec_skipped back.2.val ∧ spec_evidence mws clip back.2.val then
          insert (hash back.2.val.qname 0) s.read_names
        else s.read_names)
      ∧ (hash back.2.val.qname 0 ∉ s.read_names →
          ((classify hash mws clip s).read_names = insert (hash back.2.val.qname 0) s.read_names
            ↔ ¬ spec_skipped back.2.val ∧ spec_evidence mws clip back.2.val)) := by
  have hs := skipped_iff back.2.val hflag
  have hm := marks_read_iff mws clip hclip back.2.val hflag
  have hmain : (classify hash mws clip s).read_names =
      (if ¬ spec_skipped back.2.val ∧ spec_evidence mws clip back.2.val then
        insert (hash back.2.val.qname 0) s.read_names
      else s.read_names) := by
    rw [classify_read_names hash mws clip s back hback]
    by_cases h1 : skipped back.2.val = true
    · rw [if_pos h1, if_neg (fun h => h.1 (hs.mp h1))]
    · rw [if_neg h1]
      have h1s : ¬ spec_skipped back.2.val := fun h => h1 (hs.mpr h)
      by_cases h2 : hash back.2.val.qname 0 ∈ s.read_names
      · rw [if_pos h2]
        split_ifs
        · exact (Finset.insert_eq_of_mem h2).symm
        · rfl
      · rw [if_neg h2]
        by_cases h3 : marks_read mws clip back.2.val = true
        · rw [if_pos h3, if_pos ⟨h1s, hm.mp h3⟩]
        · rw [if_neg h3, if_neg (fun h => h3 (hm.mpr h.2))]
  refine ⟨hmain, fun hfresh => ?_⟩
  rw [hmain]
  constructor
  · intro heq
    by_contra hc
    rw [if_neg hc] at heq
    exact hfresh (heq ▸ Finset.mem_insert_self _ _)
  · intro hc
    rw [if_pos hc]

/-- Witness for C5: the soft-clipped record "A" classified against the empty
interest set. -/
theorem interest_predicate_witness :
    (state_reading rec_A2).scope.getLast? = some (0, ⟨0, rec_A2⟩)
      ∧ (classify sum_hash 10 20 (state_reading rec_A2)).read_names =
          (if ¬ spec_skipped rec_A2 ∧ spec_evidence 10 20 rec_A2 then
            insert (sum_hash rec_A2.qname 0) (state_reading rec_A2).read_names
          else (state_reading rec_A2).read_names) :=
  ⟨rfl, (interest_predicate sum_hash 10 20 (state_reading rec_A2) (0, ⟨0, rec_A2⟩) rfl
    (by decide) (by decide)).1⟩

/-- C6 (soft-clip threshold): for an evaluated record at the back of the scope
that is neither discordant nor supplementary, carries no SA tag and has no
insertion or deletion of length at least `min_within_size`, and whose
fingerprint is not yet in the interest set, classification inserts the
fingerprint exactly when `clip_length > 0` and some soft clip has length at
least `clip_length` as integers. -/
theorem soft_clip_boundary (hash : List Nat → Nat → Nat) (mws : Nat) (clip : Int) (s : State)
    (back : Nat × bam1_ptr) (hback : s.scope.getLast? = some back)
    (hflag : back.2.val.flag < 65536) (hclip : clip < 2147483648)
    (heval : ¬ spec_skipped back.2.val)
    (hfresh : hash back.2.val.qname 0 ∉ s.read_names)
    (hpair : ¬ (back.2.val.flag &&& 1 ≠ 0 ∧ back.2.val.flag &&& 2 = 0))
    (hsupp : back.2.val.flag &&& 2048 = 0) (hsa : (83, 65) ∉ back.2.val.aux)
    (hindel : ∀ c ∈ back.2.val.cigar, (c.1 = BAM_CINS ∨ c.1 = BAM_CDEL) → c.2 < mws) :
    hash back.2.val.qname 0 ∈ (classify hash mws clip s).read_names
      ↔ clip > 0 ∧ ∃ c ∈ back.2.val.cigar, c.1 = BAM_CSOFT_CLIP ∧ (c.2 : Int) ≥ clip := by
  have hskip : skipped back.2.val = false := by
    cases h : skipped back.2.val
    · rfl
    · exact absurd ((skipped_iff back.2.val hflag).mp h) heval
  rw [classify_marks_iff hash mws clip s back hback hskip hfresh,
    marks_read_iff mws clip hclip back.2.val hflag]
  unfold spec_evidence
  constructor
  · rintro (h | h | h | ⟨c, hc, h1, h2, h3⟩ | ⟨c, hc, h1, h2⟩)
    · exact absurd h hpair
    · exact absurd hsupp h
    · exact absurd h hsa
    · exact ⟨h2, c, hc, h1, h3⟩
    · exact absurd h2 (Nat.not_le.mpr (hindel c hc h1))
  · rintro ⟨h2, c, hc, h1, h3⟩
    exact Or.inr (Or.inr (Or.inr (Or.inl ⟨c, hc, h1, h2, h3⟩)))

/-- Witness for C6: the record "A" with a 30-base soft clip, threshold 20. -/
theorem soft_clip_boundary_witness :
    ¬ spec_skipped rec_A2 ∧ sum_hash rec_A2.qname 0 ∉ (state_reading rec_A2).read_names
      ∧ (sum_hash rec_A2.qname 0 ∈ (classify sum_hash 10 20 (state_reading rec_A2)).read_names
          ↔ (20 : Int) > 0
            ∧ ∃ c ∈ rec_A2.cigar, c.1 = BAM_CSOFT_CLIP ∧ (c.2 : Int) ≥ 20) :=
  ⟨by decide, by decide,
    soft_clip_boundary sum_hash 10 20 (state_reading rec_A2) (0, ⟨0, rec_A2⟩) rfl
      (by decide) (by decide) (by decide) (by decide) (by decide) (by decide) (by decide)
      (by decide)⟩

/-- C7 (indel threshold): for an evaluated record at the back of the scope
that is neither discordant nor supplementary, carries no SA tag and has no
qualifying soft clip, and whose fingerprint is not yet in the interest set,
classification inserts the fingerprint exactly when some insertion or deletion
has length at least `min_within_size`. -/
theorem indel_boundary (hash : List Nat → Nat → Nat) (mws : Nat) (clip : Int) (s : State)
    (back : Nat × bam1_ptr) (hback : s.scope.getLast? = some back)
    (hflag : back.2.val.flag < 65536) (hclip : clip < 2147483648)
    (heval : ¬ spec_skipped back.2.val)
    (hfresh : hash back.2.val.qname 0 ∉ s.read_names)
    (hpair : ¬ (back.2.val.flag &&& 1 ≠ 0 ∧ back.2.val.flag &&& 2 = 0))
    (hsupp : back.2.val.flag &&& 2048 = 0) (hsa : (83, 65) ∉ back.2.val.aux)
    (hsoft : ∀ c ∈ back.2.val.cigar, c.1 = BAM_CSOFT_CLIP →
      ¬ (clip > 0 ∧ (c.2 : Int) ≥ clip)) :
    hash back.2.val.qname 0 ∈ (classify hash mws clip s).read_names
      ↔ ∃ c ∈ back.2.val.cigar, (c.1 = BAM_CINS ∨ c.1 = BAM_CDEL) ∧ c.2 ≥ mws := by
  have hskip : skipped back.2.val = false := by
    cases h : skipped back.2.val
    · rfl
    · exact absurd ((skipped_iff back.2.val hflag).mp h) heval
  rw [classify_marks_iff hash mws clip s back hback hskip hfresh,
    marks_read_iff mws clip hclip back.2.val hflag]
  unfold spec_evidence
  constructor
  · rintro (h | h | h | ⟨c, hc, h1, h2, h3⟩ | h)
    · exact absurd h hpair
    · exact absurd hsupp h
    · exact absurd h hsa
    · exact absurd ⟨h2, h3⟩ (hsoft c hc h1)
    · exact h
  · intro h
    exact Or.inr (Or.inr (Or.inr (Or.inr h)))

/-- Witness for C7: the record "C" with a deletion of length exactly
`min_within_size = 10`. -/
theorem indel_boundary_witness :
    ¬ spec_skipped rec_I ∧ sum_hash rec_I.qname 0 ∉ (state_reading rec_I).read_names
      ∧ (sum_hash rec_I.qname 0 ∈ (classify sum_hash 10 20 (state_reading rec_I)).read_names
          ↔ ∃ c ∈ rec_I.cigar, (c.1 = BAM_CINS ∨ c.1 = BAM_CDEL) ∧ c.2 ≥ 10) :=
  ⟨by decide, by decide,
    indel_boundary sum_hash 10 20 (state_reading rec_I) (0, ⟨0, rec_I⟩) rfl
      (by decide) (by decide) (by decide) (by decide) (by decide) (by decide) (by decide)
      (by decide)⟩

/-- C8 (end-to-end scenario): with `clip_length = 20` and no transport failure,
for the input "A" (proper pair, 100M), "A" (proper-pair mate, 70M30S), "B"
(proper pair, 100M), where the fingerprints of "A" and "B" differ and the
fingerprint of "A" is not 0, the function writes exactly the two "A" records
in input order and returns 2. -/
theorem end_to_end (io : Transport) (hash : List Nat → Nat → Nat) (mws : Nat) (threads : Int)
    (hopen : opens_ok io threads) (hw : writes_ok io)
    (hc1 : io.hts_close_in = 0) (hc2 : 0 ≤ io.hts_close_out)
    (hrec : io.records = [rec_A1, rec_A2, rec_B])
    (hne : hash [65] 0 ≠ hash [66] 0) (hnz : hash [65] 0 ≠ 0) :
    search_hts_alignments io hash mws 20 threads = ⟨2, [⟨0, rec_A1⟩, ⟨1, rec_A2⟩]⟩ := by
  have hev : evaluated [rec_A1, rec_A2, rec_B] = [rec_A1, rec_A2, rec_B] := by decide
  have hm1 : marks_read mws 20 rec_A1 = false := by
    have hd : discordant_or_supplementary (rec_A1.flag % 65536) = false := by decide
    have ha : bam_aux_get_SA rec_A1 = false := by decide
    unfold marks_read
    rw [hd, ha]
    simp [rec_A1, cigar_scan, bam_cigar_op, BAM_CSOFT_CLIP, BAM_CINS, BAM_CDEL]
  have hm2 : marks_read mws 20 rec_A2 = true := by
    have hd : discordant_or_supplementary (rec_A2.flag % 65536) = false := by decide
    have ha : bam_aux_get_SA rec_A2 = false := by decide
    have hcc : check_clips 20 ≠ 0 ∧ to_uint32 20 ≤ 30 := by decide
    unfold marks_read
    rw [hd, ha]
    simp [rec_A2, cigar_scan, bam_cigar_op, bam_cigar_oplen, BAM_CSOFT_CLIP, BAM_CINS,
      BAM_CDEL, hcc]
  have hm3 : marks_read mws 20 rec_B = false := by
    have hd : discordant_or_supplementary (rec_B.flag % 65536) = false := by decide
    have ha : bam_aux_get_SA rec_B = false := by decide
    unfold marks_read
    rw [hd, ha]
    simp [rec_B, cigar_scan, bam_cigar_op, BAM_CSOFT_CLIP, BAM_CINS, BAM_CDEL]
  have hset : interest_set hash mws 20 [rec_A1, rec_A2, rec_B] = {hash [65] 0} := by
    ext f
    rw [mem_interest_set, Finset.mem_singleton]
    constructor
    · rintro ⟨e, he, hm, hf⟩
      simp only [List.mem_cons, List.mem_singleton, List.not_mem_nil, or_false] at he
      rcases he with rfl | rfl | rfl
      · rw [hm1] at hm; cases hm
      · exact hf.symm
      · rw [hm3] at hm; cases hm
    · intro hf
      exact ⟨rec_A2, by simp, hm2, hf.symm⟩
  have htake : ∀ n, List.take (n + max_scope) [rec_A1, rec_A2, rec_B]
      = [rec_A1, rec_A2, rec_B] := by
    intro n
    apply List.take_of_length_le
    have := max_scope_pos
    unfold max_scope
    simp only [List.length_cons, List.length_nil]
    omega
  have hk : kept_records max_scope hash mws 20 [rec_A1, rec_A2, rec_B]
      = [⟨0, rec_A1⟩, ⟨1, rec_A2⟩] := by
    unfold kept_records
    rw [hev]
    simp only [scope_entries, List.filter_cons, kept, htake, hset, Finset.mem_singleton]
    have q1 : rec_A1.qname = [65] := rfl
    have q2 : rec_A2.qname = [65] := rfl
    have q3 : rec_B.qname = [66] := rfl
    simp [q1, q2, q3, hne.symm]
  have ht : trailing hash mws 20 [rec_A1, rec_A2, rec_B] = [] := by
    unfold trailing
    rw [hev, hset, if_neg (by rw [Finset.mem_singleton]; exact hnz.symm)]
  obtain ⟨hwr, hret⟩ := search_result max_write_queue hash mws 20 max_scope_pos hopen hw
  have hcl : ¬ (io.hts_close_in ≠ 0 ∨ io.hts_close_out < 0) := by
    rintro (h | h)
    · exact h hc1
    · omega
  rw [if_neg hcl, hrec, hk, ht] at hret
  rw [hrec, hk, ht] at hwr
  unfold search_hts_alignments
  cases hres : search_hts_alignments_with max_scope max_write_queue io hash mws 20 threads with
  | mk ret written =>
    rw [hres] at hwr hret
    simp only at hwr hret
    rw [hwr, hret]
    rfl

/-- Witness for C8: the quiet transport and the sample fingerprint function. -/
theorem end_to_end_witness :
    sum_hash [65] 0 ≠ sum_hash [66] 0 ∧ sum_hash [65] 0 ≠ 0
      ∧ search_hts_alignments (quiet_transport [rec_A1, rec_A2, rec_B]) sum_hash 10 20 1
          = ⟨2, [⟨0, rec_A1⟩, ⟨1, rec_A2⟩]⟩ :=
  ⟨by decide, by decide,
    end_to_end (quiet_transport [rec_A1, rec_A2, rec_B]) sum_hash 10 1 (quiet_opens_ok _ _)
      (quiet_writes_ok _) rfl (Int.le_refl 0) rfl (by decide) (by decide)⟩

/-- C9 (window boundary), for every window size `max_scope ≥ 1` (100000 in the
source): in a run without transport failure over a stream of evaluated
records, if no record at a position up to `j + max_scope` with the fingerprint
of the record `R1` at position `j` satisfies the interest predicate (`R1`
included) and a same-named record `R2` at a position beyond `j + max_scope`
does, then the record object of `R1` is not written and that of `R2` is. -/
theorem window_boundary (ms mq : Nat) (io : Transport) (hash : List Nat → Nat → Nat)
    (mws : Nat) (clip : Int) (threads : Int) (j p : Nat) (R1 R2 : bam1_t)
    (hms : 0 < ms) (hopen : opens_ok io threads) (hw : writes_ok io)
    (hall : ∀ r ∈ io.records, skipped r = false)
    (h1 : io.records[j]? = some R1) (h2 : io.records[p]? = some R2)
    (hnot : ∀ k e, k ≤ j + ms → io.records[k]? = some e →
      hash e.qname 0 = hash R1.qname 0 → marks_read mws clip e = false)
    (hfar : j + ms < p) (hname : R2.qname = R1.qname)
    (hint : marks_read mws clip R2 = true) :
    (⟨j, R1⟩ : bam1_ptr) ∉ (search_hts_alignments_with ms mq io hash mws clip threads).written
      ∧ (⟨p, R2⟩ : bam1_ptr)
          ∈ (search_hts_alignments_with ms mq io hash mws clip threads).written := by
  have hev : evaluated io.records = io.records := by
    unfold evaluated
    rw [List.filter_eq_self]
    intro r hr
    simp [hall r hr]
  have hsame : hash R2.qname 0 = hash R1.qname 0 := by rw [hname]
  have hbeyond : ¬ p ≤ j + ms := Nat.not_le.mpr hfar
  rw [(search_result mq hash mws clip hms hopen hw).1]
  constructor
  · intro hmem
    rcases List.mem_append.mp hmem with hmem | hmem
    · obtain ⟨_, k, e, hlt, hke, hm, hf⟩ := mem_kept_records.mp hmem
      rw [hev] at hke
      have hlt2 : k < j + ms := hlt
      have := hnot k e (by omega) hke hf
      rw [this] at hm
      cases hm
    · have hj := (mem_trailing hmem).1
      rw [hev] at hj
      have hj2 : j = io.records.length := hj
      rw [List.getElem?_eq_none (by omega)] at h1
      cases h1
  · apply List.mem_append_left
    rw [mem_kept_records, hev]
    exact ⟨h2, p, R2, by show p < p + ms; omega, h2, hint, rfl⟩

/-- Witness for C9: window size 1, the unremarkable "A", then "B", then the
soft-clipped "A" two positions later. -/
theorem window_boundary_witness :
    (quiet_transport [rec_A1, rec_B, rec_A2]).records[0]? = some rec_A1
      ∧ (quiet_transport [rec_A1, rec_B, rec_A2]).records[2]? = some rec_A2
      ∧ marks_read 10 20 rec_A2 = true
      ∧ (⟨0, rec_A1⟩ : bam1_ptr) ∉ (search_hts_alignments_with 1 1
          (quiet_transport [rec_A1, rec_B, rec_A2]) sum_hash 10 20 1).written
      ∧ (⟨2, rec_A2⟩ : bam1_ptr) ∈ (search_hts_alignments_with 1 1
          (quiet_transport [rec_A1, rec_B, rec_A2]) sum_hash 10 20 1).written :=
  ⟨rfl, rfl, by decide,
    window_boundary 1 1 (quiet_transport [rec_A1, rec_B, rec_A2]) sum_hash 10 20 1 0 2
      rec_A1 rec_A2 (by decide) (quiet_opens_ok _ _) (quiet_writes_ok _) (by decide) rfl rfl
      (by
        intro k e hk hke hf
        have hk1 : k = 0 ∨ k = 1 := by omega
        rcases hk1 with rfl | rfl
        · have he : e = rec_A1 := by
            have : some rec_A1 = some e := hke
            exact (Option.some.inj this).symm
          subst he
          decide
        · have he : e = rec_B := by
            have : some rec_B = some e := hke
            exact (Option.some.inj this).symm
          subst he
          decide)
      (by decide) rfl (by decide)⟩

/-- C10 (forward retention): in a run without transport failure, once the
evaluated record number `a` has satisfied the interest predicate, every
evaluated record number `b ≥ a` with the same fingerprint is written, however
many records (even more than `max_scope`) lie between them. -/
theorem forward_retention (io : Transport) (hash : List Nat → Nat → Nat) (mws : Nat)
    (clip : Int) (threads : Int) (a b : Nat) (R1 R2 : bam1_t)
    (hopen : opens_ok io threads) (hw : writes_ok io)
    (h1 : (evaluated io.records)[a]? = some R1) (h2 : (evaluated io.records)[b]? = some R2)
    (hab : a ≤ b) (hfp : hash R2.qname 0 = hash R1.qname 0)
    (hint : marks_read mws clip R1 = true) :
    (⟨b, R2⟩ : bam1_ptr) ∈ (search_hts_alignments io hash mws clip threads).written := by
  unfold search_hts_alignments
  rw [(search_result max_write_queue hash mws clip max_scope_pos hopen hw).1]
  apply List.mem_append_left
  rw [mem_kept_records]
  refine ⟨h2, a, R1, ?_, h1, hint, hfp.symm⟩
  have := max_scope_pos
  show a < b + max_scope
  omega

/-- Witness for C10: the soft-clipped "A", then "B", then the unremarkable
"A". -/
theorem forward_retention_witness :
    (evaluated (quiet_transport [rec_A2, rec_B, rec_A1]).records)[0]? = some rec_A2
      ∧ (evaluated (quiet_transport [rec_A2, rec_B, rec_A1]).records)[2]? = some rec_A1
      ∧ marks_read 10 20 rec_A2 = true
      ∧ (⟨2, rec_A1⟩ : bam1_ptr) ∈ (search_hts_alignments
          (quiet_transport [rec_A2, rec_B, rec_A1]) sum_hash 10 20 1).written :=
  ⟨by decide, by decide, by decide,
    forward_retention (quiet_transport [rec_A2, rec_B, rec_A1]) sum_hash 10 20 1 0 2
      rec_A2 rec_A1 (quiet_opens_ok _ _) (quiet_writes_ok _) (by decide) (by decide)
      (by decide) (by decide) (by decide)⟩

/-- C11 (batch-threshold independence): in a run without write failure, two
values `q1`, `q2` of the write-queue threshold `max_write_queue` give the same
written sequence, in the same order, and the same returned value. -/
theorem batch_threshold_independent (io : Transport) (hash : List Nat → Nat → Nat) (mws : Nat)
    (clip : Int) (threads : Int) (q1 q2 : Nat) (hw : writes_ok io) :
    search_hts_alignments_with max_scope q1 io hash mws clip threads
      = search_hts_alignments_with max_scope q2 io hash mws clip threads := by
  by_cases hopen : opens_ok io threads
  · obtain ⟨hw1, hr1⟩ := search_result q1 hash mws clip max_scope_pos hopen hw
    obtain ⟨hw2, hr2⟩ := search_result q2 hash mws clip max_scope_pos hopen hw
    exact outcome_ext (hr1.trans hr2.symm) (hw1.trans hw2.symm)
  · rw [written_of_not_opens _ _ _ _ _ _ _ hopen, written_of_not_opens _ _ _ _ _ _ _ hopen]

/-- Witness for C11: thresholds 1 and 500000 on the stream "A", "A", "B". -/
theorem batch_threshold_independent_witness :
    writes_ok (quiet_transport [rec_A1, rec_A2, rec_B])
      ∧ search_hts_alignments_with max_scope 1 (quiet_transport [rec_A1, rec_A2, rec_B])
          sum_hash 10 20 1
        = search_hts_alignments_with max_scope 500000
            (quiet_transport [rec_A1, rec_A2, rec_B]) sum_hash 10 20 1 :=
  ⟨quiet_writes_ok _,
    batch_threshold_independent (quiet_transport [rec_A1, rec_A2, rec_B]) sum_hash 10 20 1
      1 500000 (quiet_writes_ok _)⟩

/-- C19 (exact output): in a run without transport failure in which no
evaluated record satisfying the interest predicate has fingerprint 0, let
`e_0, e_1, ...` be the evaluated records in input order.  A record object is
written iff it is the object number `j` holding `e_j` and some `e_k` with
`k < j + max_scope` has the fingerprint of `e_j` and satisfies the interest
predicate; the objects are written in increasing order of `j`, so the written
records are exactly that subsequence of the evaluated records, however many
skipped records are interleaved; no skipped record is written. -/
theorem exact_output (io : Transport) (hash : List Nat → Nat → Nat) (mws : Nat) (clip : Int)
    (threads : Int) (hopen : opens_ok io threads) (hw : writes_ok io)
    (h0 : ∀ e ∈ io.records, skipped e = false → marks_read mws clip e = true →
      hash e.qname 0 ≠ 0) :
    (∀ p : bam1_ptr, p ∈ (search_hts_alignments io hash mws clip threads).written ↔
        (evaluated io.records)[p.addr]? = some p.val
          ∧ ∃ k e, k < p.addr + max_scope ∧ (evaluated io.records)[k]? = some e
              ∧ marks_read mws clip e = true ∧ hash e.qname 0 = hash p.val.qname 0)
      ∧ ((search_hts_alignments io hash mws clip threads).written.map
          (fun p => p.addr)).Pairwise (fun x y => x < y)
      ∧ ((search_hts_alignments io hash mws clip threads).written.map
          (fun p => p.val)).Sublist (evaluated io.records)
      ∧ ∀ p ∈ (search_hts_alignments io hash mws clip threads).written,
          skipped p.val = false := by
  unfold search_hts_alignments
  rw [(search_result max_write_queue hash mws clip max_scope_pos hopen hw).1,
    trailing_nil h0, List.append_nil]
  refine ⟨fun p => mem_kept_records, kept_records_pairwise _ _ _ _ _,
    kept_records_sublist _ _ _ _ _, ?_⟩
  intro p hp
  have hget := (mem_kept_records.mp hp).1
  have hmem : p.val ∈ evaluated io.records := List.mem_iff_getElem?.mpr ⟨_, hget⟩
  unfold evaluated at hmem
  simpa using (List.mem_filter.mp hmem).2

/-- Witness for C19: the stream "A" (unremarkable), "A" (skipped), "B", "A"
(soft-clipped). -/
theorem exact_output_witness :
    (∀ e ∈ (quiet_transport [rec_A1, rec_S, rec_B, rec_A2]).records, skipped e = false →
        marks_read 10 20 e = true → sum_hash e.qname 0 ≠ 0)
      ∧ ((search_hts_alignments (quiet_transport [rec_A1, rec_S, rec_B, rec_A2]) sum_hash
          10 20 1).written.map (fun p => p.val)).Sublist
            (evaluated (quiet_transport [rec_A1, rec_S, rec_B, rec_A2]).records) :=
  ⟨by decide,
    (exact_output (quiet_transport [rec_A1, rec_S, rec_B, rec_A2]) sum_hash 10 20 1
      (quiet_opens_ok _ _) (quiet_writes_ok _) (by decide)).2.2.1⟩

/-- C16 (interest-set invariant): as long as no write fails, the read loop
processes every prefix `pre` of the input, and after it a fingerprint `f` is in
`read_names` iff some evaluated record of `pre` has fingerprint `f` and
satisfies the interest predicate; the set after a longer prefix `pre ++ rest`
contains the set after `pre`. -/
theorem interest_set_invariant (w : Nat → Int) (hash : List Nat → Nat → Nat) (mws : Nat)
    (clip : Int) (hw : ∀ n, 0 ≤ w n) (pre rest : List bam1_t) :
    ∃ s s2,
      ingest max_scope max_write_queue w hash mws clip init_state pre = Except.ok s
        ∧ ingest max_scope max_write_queue w hash mws clip init_state (pre ++ rest)
            = Except.ok s2
        ∧ (∀ f, f ∈ s.read_names ↔
            ∃ e ∈ pre, skipped e = false ∧ hash e.qname 0 = f
              ∧ marks_read mws clip e = true)
        ∧ s.read_names ⊆ s2.read_names := by
  obtain ⟨s, hin, hn, _, _⟩ :=
    ingest_read_names hash mws clip max_write_queue max_scope_pos hw pre
  obtain ⟨s2, hin2, hn2, _, _⟩ :=
    ingest_read_names hash mws clip max_write_queue max_scope_pos hw (pre ++ rest)
  refine ⟨s, s2, hin, hin2, ?_, ?_⟩
  · intro f
    rw [hn]
    exact mem_interest_set_evaluated
  · intro f hf
    rw [hn] at hf
    rw [hn2]
    obtain ⟨e, he, hs, hfe, hm⟩ := mem_interest_set_evaluated.mp hf
    exact mem_interest_set_evaluated.mpr ⟨e, List.mem_append_left _ he, hs, hfe, hm⟩

/-- Witness for C16: prefix "A" (unremarkable), "A" (soft-clipped) of the
stream that continues with "B". -/
theorem interest_set_invariant_witness :
    (∀ n : Nat, (0 : Int) ≤ (fun _ => 0) n)
      ∧ ∃ s s2,
        ingest max_scope max_write_queue (fun _ => 0) sum_hash 10 20 init_state
            [rec_A1, rec_A2] = Except.ok s
          ∧ ingest max_scope max_write_queue (fun _ => 0) sum_hash 10 20 init_state
              ([rec_A1, rec_A2] ++ [rec_B]) = Except.ok s2
          ∧ (∀ f, f ∈ s.read_names ↔
              ∃ e ∈ [rec_A1, rec_A2], skipped e = false ∧ sum_hash e.qname 0 = f
                ∧ marks_read 10 20 e = true)
          ∧ s.read_names ⊆ s2.read_names :=
  ⟨fun _ => Int.le_refl 0,
    interest_set_invariant (fun _ => 0) sum_hash 10 20 (fun _ => Int.le_refl 0)
      [rec_A1, rec_A2] [rec_B]⟩

/-- C17 (window capacity bound): as long as no write fails, for every prefix
`pre` of the input (with or without skipped records) and every next record
`r`, the scope holds at least 1 and at most `max_scope + 1` entries, the slot
being read into included, at every point of the iteration: at the loop head
after `pre`, after the read of `r`, after the overflow pop, after the flush,
and after the classification and push. -/
theorem window_capacity_bound (w : Nat → Int) (hash : List Nat → Nat → Nat) (mws : Nat)
    (clip : Int) (hw : ∀ n, 0 ≤ w n) (pre : List bam1_t) (r : bam1_t) :
    ∃ s s3,
      ingest max_scope max_write_queue w hash mws clip init_state pre = Except.ok s
        ∧ flush_if_full max_write_queue w (resolve_overflow max_scope (read_into_back s r))
            = Except.ok s3
        ∧ ingest max_scope max_write_queue w hash mws clip init_state (pre ++ [r])
            = Except.ok (classify hash mws clip s3)
        ∧ (1 ≤ s.scope.length ∧ s.scope.length ≤ max_scope + 1)
        ∧ (1 ≤ (read_into_back s r).scope.length
            ∧ (read_into_back s r).scope.length ≤ max_scope + 1)
        ∧ (1 ≤ (resolve_overflow max_scope (read_into_back s r)).scope.length
            ∧ (resolve_overflow max_scope (read_into_back s r)).scope.length ≤ max_scope + 1)
        ∧ (1 ≤ s3.scope.length ∧ s3.scope.length ≤ max_scope + 1)
        ∧ (1 ≤ (classify hash mws clip s3).scope.length
            ∧ (classify hash mws clip s3).scope.length ≤ max_scope + 1) := by
  obtain ⟨s, s3, hin, hfl, b0, b1, b2, b3, b4⟩ :=
    scope_bounds hash mws clip max_write_queue max_scope_pos hw pre r
  refine ⟨s, s3, hin, hfl, ?_, b0, b1, ⟨b2.1, by omega⟩, ⟨b3.1, by omega⟩, b4⟩
  rw [ingest_append, hin]
  simp only [ingest, loop_body_eq, hfl]

/-- Witness for C17: the prefix "A", "A" (skipped) and the next record "B". -/
theorem window_capacity_bound_witness :
    (∀ n : Nat, (0 : Int) ≤ (fun _ => 0) n)
      ∧ ∃ s s3,
        ingest max_scope max_write_queue (fun _ => 0) sum_hash 10 20 init_state
            [rec_A1, rec_S] = Except.ok s
          ∧ flush_if_full max_write_queue (fun _ => 0)
              (resolve_overflow max_scope (read_into_back s rec_B)) = Except.ok s3
          ∧ ingest max_scope max_write_queue (fun _ => 0) sum_hash 10 20 init_state
              ([rec_A1, rec_S] ++ [rec_B]) = Except.ok (classify sum_hash 10 20 s3)
          ∧ (1 ≤ s.scope.length ∧ s.scope.length ≤ max_scope + 1)
          ∧ (1 ≤ (read_into_back s rec_B).scope.length
              ∧ (read_into_back s rec_B).scope.length ≤ max_scope + 1)
          ∧ (1 ≤ (resolve_overflow max_scope (read_into_back s rec_B)).scope.length
              ∧ (resolve_overflow max_scope (read_into_back s rec_B)).scope.length
                ≤ max_scope + 1)
          ∧ (1 ≤ s3.scope.length ∧ s3.scope.length ≤ max_scope + 1)
          ∧ (1 ≤ (classify sum_hash 10 20 s3).scope.length
              ∧ (classify sum_hash 10 20 s3).scope.length ≤ max_scope + 1) :=
  ⟨fun _ => Int.le_refl 0,
    window_capacity_bound (fun _ => 0) sum_hash 10 20 (fun _ => Int.le_refl 0)
      [rec_A1, rec_S] rec_B⟩

/-- C18 (the short-circuit is a pure optimisation): the variant that evaluates
the evidence of every evaluated record, also when its fingerprint is already in
the interest set, reaches the same state as the original after every prefix of
every input from every state (so the same interest set after every step), and
gives the same written sequence and the same returned value, for every
transport and all parameters. -/
theorem short_circuit_pure (io : Transport) (w : Nat → Int) (hash : List Nat → Nat → Nat)
    (mws : Nat) (clip : Int) (threads : Int) (s : State) (pre : List bam1_t) :
    ingest_always max_scope max_write_queue w hash mws clip s pre
        = ingest max_scope max_write_queue w hash mws clip s pre
      ∧ search_hts_alignments_always io hash mws clip threads
        = search_hts_alignments io hash mws clip threads := by
  refine ⟨ingest_always_eq _ _ _ _ _ _ _ _, ?_⟩
  unfold search_hts_alignments_always search_hts_alignments search_hts_alignments_with
  rw [ingest_always_eq]

/-- C12 (code evaluated at the failing input): on a stream of 2147483648
discordant records "A", with no transport failure, the function writes all
2147483648 records and returns -2147483648: the 64-bit counter `total` does
not fit the returned `int`. -/
theorem return_value_wraps :
    (search_hts_alignments (quiet_transport (List.replicate 2147483648 rec_D)) sum_hash 10 20
        1).written.length = 2147483648
      ∧ (search_hts_alignments (quiet_transport (List.replicate 2147483648 rec_D)) sum_hash 10
        20 1).ret = -2147483648 := by
  have hall : ∀ e ∈ (quiet_transport (List.replicate 2147483648 rec_D)).records,
      skipped e = false ∧ marks_read 10 20 e = true ∧ sum_hash e.qname 0 ≠ 0 := by
    intro e he
    have hE : e = rec_D := List.eq_of_mem_replicate he
    rw [hE]
    decide
  have hlen : (quiet_transport (List.replicate 2147483648 rec_D)).records.length
      = 2147483648 := List.length_replicate _ _
  obtain ⟨h1, h2⟩ := all_marked_result max_write_queue sum_hash 10 20 max_scope_pos
    (quiet_opens_ok (List.replicate 2147483648 rec_D) 1)
    (quiet_writes_ok (List.replicate 2147483648 rec_D)) hall
  unfold search_hts_alignments
  rw [h1, h2, hlen]
  exact ⟨rfl, by decide⟩

/-- C13 (write-failure abort): when the transport calls before the loop
succeed and the `k`-th call of `sam_write1` is the first to fail, in a run that
gets to a `k`-th write (the run without write failure writes at least `k`
records), the function returns -1 and has written exactly the first `k - 1` of
the records the run without write failure writes, in order.  Once the read
loop has aborted inside a prefix `pre` of the input, the outcome is fixed: no
record after `pre` is read or written. -/
theorem write_failure_abort (io : Transport) (hash : List Nat → Nat → Nat) (mws : Nat)
    (clip : Int) (threads : Int) (k : Nat) (hopen : opens_ok io threads) (hk : 1 ≤ k)
    (hfirst : ∀ i, i + 1 < k → 0 ≤ io.sam_write1 i) (hfail : io.sam_write1 (k - 1) < 0)
    (hreach : k ≤ (search_hts_alignments (without_write_failure io) hash mws clip
      threads).written.length) :
    search_hts_alignments io hash mws clip threads
        = ⟨-1, (search_hts_alignments (without_write_failure io) hash mws clip
            threads).written.take (k - 1)⟩
      ∧ ∀ pre rest e, io.records = pre ++ rest →
          ingest max_scope max_write_queue io.sam_write1 hash mws clip init_state pre
            = Except.error e →
          search_hts_alignments io hash mws clip threads = ⟨-1, e.out⟩ := by
  have hopen2 : opens_ok (without_write_failure io) threads := hopen
  have hw2 : writes_ok (without_write_failure io) := fun _ => Int.le_refl 0
  have hW := (search_result max_write_queue hash mws clip max_scope_pos hopen2 hw2).1
  have hrec : (without_write_failure io).records = io.records := rfl
  unfold search_hts_alignments at hreach ⊢
  rw [hW, hrec] at hreach
  rw [hW, hrec]
  constructor
  · exact search_with_failure max_write_queue hash mws clip max_scope_pos hopen
      (fun i hi => hfirst i (by omega)) hfail (by omega)
  · intro pre rest e hsplit hpre
    obtain ⟨h1, h2, h3, h4⟩ := hopen
    have hn1 : ¬ (threads > 1 ∧ io.hts_set_threads_in ≠ 0) := fun hh => hh.2 (h1 hh.1)
    unfold search_hts_alignments_with
    rw [if_neg hn1]
    simp only [h2, h3, h4, Bool.true_eq_false, if_false, ne_eq, not_true_eq_false]
    rw [hsplit, ingest_append, hpre]

/-- Witness for C13: two discordant records "A", the second write fails. -/
theorem write_failure_abort_witness :
    (failing_transport [rec_D, rec_D] 1).sam_write1 (2 - 1) < 0
      ∧ 2 ≤ (search_hts_alignments (without_write_failure (failing_transport [rec_D, rec_D] 1))
          sum_hash 10 20 1).written.length
      ∧ search_hts_alignments (failing_transport [rec_D, rec_D] 1) sum_hash 10 20 1
          = ⟨-1, (search_hts_alignments
              (without_write_failure (failing_transport [rec_D, rec_D] 1)) sum_hash 10 20
              1).written.take (2 - 1)⟩ :=
  ⟨by decide, by decide,
    (write_failure_abort (failing_transport [rec_D, rec_D] 1) sum_hash 10 20 1 2
      ⟨fun _ => rfl, rfl, rfl, rfl⟩ (by decide)
      (by
        intro i hi
        have h0 : i = 0 := by omega
        subst h0
        decide)
      (by decide) (by decide)).1⟩

/-- C14 (the handles are never tested): whatever `hts_open` returned for the
input and for the output, the function goes on to the same transport calls and
gives the same outcome; no return of -1 comes from a test of a handle. -/
theorem open_result_not_tested (io : Transport) (a b : Bool) (hash : List Nat → Nat → Nat)
    (mws : Nat) (clip : Int) (threads : Int) :
    search_hts_alignments { io with fp_in_open := a, f_out_open := b } hash mws clip threads
      = search_hts_alignments io hash mws clip threads :=
  rfl

/-- C15 (counterexample): in the stream of 100001 evaluated records, the
unremarkable "A" at position 0 is at the front of the full scope when the
same-named, soft-clipped "A" at position 100000 is read; it is popped in that
step and is not written, while the record just read is. -/
theorem front_entry_destroyed :
    far_mate_stream[0]? = some rec_A1 ∧ far_mate_stream[100000]? = some rec_A2
      ∧ rec_A2.qname = rec_A1.qname ∧ marks_read 10 20 rec_A2 = true
      ∧ (⟨0, rec_A1⟩ : bam1_ptr)
          ∉ (search_hts_alignments (quiet_transport far_mate_stream) sum_hash 10 20 1).written
      ∧ (⟨100000, rec_A2⟩ : bam1_ptr)
          ∈ (search_hts_alignments (quiet_transport far_mate_stream) sum_hash 10 20
            1).written := by
  have hrec : (quiet_transport far_mate_stream).records = far_mate_stream := rfl
  have hW := (search_result max_write_queue sum_hash 10 20 max_scope_pos
    (quiet_opens_ok far_mate_stream 1) (quiet_writes_ok far_mate_stream)).1
  rw [hrec] at hW
  refine ⟨List.getElem?_cons_zero, far_mate_stream_last, rfl, by decide, ?_, ?_⟩
  · unfold search_hts_alignments
    rw [hW]
    intro hmem
    rcases List.mem_append.mp hmem with hmem | hmem
    · obtain ⟨_, k, e, hlt, hke, hm, _⟩ := mem_kept_records.mp hmem
      rw [far_mate_stream_evaluated] at hke
      have hlt2 : k < 100000 := by
        have h3 : k < 0 + max_scope := hlt
        unfold max_scope at h3
        omega
      have hin : e ∈ far_mate_stream.take 100000 := mem_take_iff_index.mpr ⟨k, hlt2, hke⟩
      rw [far_mate_stream_take, List.mem_cons] at hin
      rcases hin with h | h
      · rw [h] at hm
        exact absurd hm (by decide)
      · rw [List.eq_of_mem_replicate h] at hm
        exact absurd hm (by decide)
    · have haddr := (mem_trailing hmem).1
      rw [far_mate_stream_evaluated] at haddr
      have h0 : (0 : Nat) = far_mate_stream.length := haddr
      unfold far_mate_stream at h0
      rw [List.length_cons] at h0
      omega
  · unfold search_hts_alignments
    rw [hW]
    apply List.mem_append_left
    rw [mem_kept_records, far_mate_stream_evaluated]
    refine ⟨far_mate_stream_last, 100000, rec_A2, ?_, far_mate_stream_last, by decide, rfl⟩
    show 100000 < 100000 + max_scope
    unfold max_scope
    omega

/-- C15 (amended): in an ingest step that finds more than `max_scope` entries
in the scope (any window size `max_scope ≥ 1`, no write failing), the front
entry is resolved against the interest set as it was before the step: it goes
to the output side iff its fingerprint was already in that set.  The record
just read is classified after that, in the same step: if it is evaluated and
satisfies the interest predicate its fingerprint is in the interest set at the
end of the step. -/
theorem front_resolved_before_classification (ms mq : Nat) (w : Nat → Int)
    (hash : List Nat → Nat → Nat) (mws : Nat) (clip : Int) (s : State) (r : bam1_t)
    (front : Nat × bam1_ptr) (rest : List (Nat × bam1_ptr)) (hms : 0 < ms)
    (hw : ∀ n, 0 ≤ w n) (hsc : s.scope = front :: rest) (hlen : s.scope.length > ms) :
    ∃ s1, loop_body ms mq w hash mws clip s r = Except.ok s1
      ∧ s1.out ++ s1.write_queue
          = s.out ++ s.write_queue ++ (if front.1 ∈ s.read_names then [front.2] else [])
      ∧ (skipped r = false → marks_read mws clip r = true →
          hash r.qname 0 ∈ s1.read_names) :=
  step_resolves_first hw ms mq hash mws clip s r front rest hms hsc hlen

/-- Witness for C15 (amended): window size 1, the entry of the unremarkable "A"
at the front, the soft-clipped "A" read. -/
theorem front_resolved_before_classification_witness :
    state_full_window.scope = (65, ⟨0, rec_A1⟩) :: [(0, ⟨1, bam_init1⟩)]
      ∧ state_full_window.scope.length > 1
      ∧ ∃ s1, loop_body 1 1 (fun _ => 0) sum_hash 10 20 state_full_window rec_A2
            = Except.ok s1
          ∧ s1.out ++ s1.write_queue
              = state_full_window.out ++ state_full_window.write_queue
                ++ (if (65, (⟨0, rec_A1⟩ : bam1_ptr)).1 ∈ state_full_window.read_names then
                    [(65, (⟨0, rec_A1⟩ : bam1_ptr)).2]
                  else [])
          ∧ (skipped rec_A2 = false → marks_read 10 20 rec_A2 = true →
              sum_hash rec_A2.qname 0 ∈ s1.read_names) :=
  ⟨rfl, by decide,
    front_resolved_before_classification 1 1 (fun _ => 0) sum_hash 10 20 state_full_window
      rec_A2 (65, ⟨0, rec_A1⟩) [(0, ⟨1, bam_init1⟩)] (by decide) (fun _ => Int.le_refl 0) rfl
      (by decide)⟩

end Dysgu
